import Mathlib

set_option maxHeartbeats 1000000

namespace ButchRename

/-! # Shallow embedding of `butch_filename_substring_remover`

Definitions are translated from the repository's Python source
(`src/butch_filename_substring_remover/{utils,rename,rename_directory}.py`).
Filesystem interaction (`os.walk`, `os.listdir`, `os.rename`) is modelled over
an explicit tree of names; machine strings are Lean `String`s / `List Char`. -/

/-! ## Name transformer (`utils.remove_substrings`) -/

/-- Predicate `ciPrefix pat s`: `pat` matches case-insensitively at the start of `s`
(literal, character-by-character, as `re` matches an escaped pattern under
`re.IGNORECASE`). -/
def ciPrefix : List Char → List Char → Bool
  | [], _ => true
  | _ :: _, [] => false
  | p :: ps, c :: cs => (p.toLower == c.toLower) && ciPrefix ps cs

/-- Left-to-right scan deleting case-insensitive occurrences of `pat`,
non-overlapping, leftmost first — the behaviour of
`re.sub(re.escape(pat), '', s, flags=re.IGNORECASE)`.  The counter is the
number of characters of the currently deleted match still to consume; it makes
the scan structurally recursive.  See `removeCI_cons` for the scan-shaped
equation. -/
def removeCIAux (pat : List Char) : Nat → List Char → List Char
  | _, [] => []
  | Nat.succ k, _ :: cs => removeCIAux pat k cs
  | 0, c :: cs =>
    if ciPrefix pat (c :: cs) then removeCIAux pat (pat.length - 1) cs
    else c :: removeCIAux pat 0 cs

def removeCI (pat s : List Char) : List Char := removeCIAux pat 0 s

/-- Function `utils.remove_substrings`: for each substring in turn (the Python source
iterates over a `set`; the iteration order is modelled by the list order),
skip it if empty, otherwise delete every case-insensitive occurrence. -/
def remove_substrings (s : String) (to_remove : List String) : String :=
  to_remove.foldl
    (fun acc sub => if sub = "" then acc else (removeCI sub.data acc.data).asString) s

/-! ## Name validator (`rename.is_valid_filename`) -/

/-- The ASCII characters stripped by Python `str.strip()`. -/
def pyIsSpace (c : Char) : Bool :=
  c == ' ' || c == '\t' || c == '\n' || c == '\r' || c == Char.ofNat 11 || c == Char.ofNat 12

/-- Python `str.strip()`. -/
def pyStrip (s : List Char) : List Char :=
  ((s.dropWhile pyIsSpace).reverse.dropWhile pyIsSpace).reverse

/-- Validator `rename.is_valid_filename`, clause by clause:
`not name or name.strip() == ""`; `name in (".", "..")`;
`name.replace(".", "").replace(" ", "") == ""`. -/
def is_valid_filename (name : String) : Bool :=
  if name = "" || (pyStrip name.data).isEmpty then false
  else if name = "." || name = ".." then false
  else if (name.data.filter (fun c => !(c == '.') && !(c == ' '))).isEmpty then false
  else true

/-- Modelled from the spec: `should_process_file` is imported from the
package's `utils` module, but its definition is not present in the available
source tree.  Per the spec (§4.4, §8): with no allow-list every file is
processed; with an allow-list, files whose extension is absent from the list
are skipped entirely (`--ext .txt` excludes `report_old.pdf`, includes
`report_old.txt`).  A listed extension matches when the filename ends with
it. -/
def should_process_file (filename : String) (extensions : Option (List String)) : Bool :=
  match extensions with
  | none => true
  | some exts => exts.any (fun e => e.data.isSuffixOf filename.data)

/-! ## Filesystem trees and `os.walk(root, topdown=False)` -/

mutual

/-- A filesystem object: a file, or a directory with its children. -/
inductive FSTree where
  | file (name : String)
  | dir (name : String) (children : FSForest)
deriving Repr

/-- A directory listing, in listing order. -/
inductive FSForest where
  | nil
  | cons (t : FSTree) (rest : FSForest)
deriving Repr
end

/-- Names of the directory children, in listing order. -/
def dirNames : FSForest → List String
  | .nil => []
  | .cons (.file _) rest => dirNames rest
  | .cons (.dir n _) rest => n :: dirNames rest

/-- Names of the file children, in listing order. -/
def fileNames : FSForest → List String
  | .nil => []
  | .cons (.file n) rest => n :: fileNames rest
  | .cons (.dir _ _) rest => fileNames rest

/-- Model of `os.path.join` for a directory path with no trailing separator. -/
def pathJoin (dir name : String) : String := dir ++ "/" ++ name

/-- One `os.walk` triple `(dirpath, dirnames, filenames)`. -/
abbrev WalkEntry := String × List String × List String

/-- The walk entries contributed by a directory listing, bottom-up
(`topdown=False`): for each subdirectory, first the entries of its own
subtree, then its own triple; files contribute no entries. -/
def walkDirs (path : String) : FSForest → List WalkEntry
  | .nil => []
  | .cons (.file _) rest => walkDirs path rest
  | .cons (.dir n cs) rest =>
    (walkDirs (pathJoin path n) cs ++ [(pathJoin path n, dirNames cs, fileNames cs)])
      ++ walkDirs path rest

/-- Model of `os.walk(root, topdown=False)` where `cs` is the listing of the root
directory: all subtree entries bottom-up, then the root's own triple. -/
def osWalk (root : String) (cs : FSForest) : List WalkEntry :=
  walkDirs root cs ++ [(root, dirNames cs, fileNames cs)]

/-! ## The planner (`rename.collect_rename_operations`) -/

/-- A planned rename: the `(old_path, new_path, old_name, new_name)` tuple
appended to `operations`. -/
structure Op where
  old_path : String
  new_path : String
  old_name : String
  new_name : String
deriving Repr, DecidableEq

/-- A planning error, carrying the data of the formatted message.  The
"Cannot list directory" error (`os.listdir` raising) has no counterpart in the
tree model, where listing never fails. -/
inductive PlanError where
  | invalidName (isDir : Bool) (old new : String)
  | nameConflict (isDir : Bool) (old new : String)
deriving Repr, DecidableEq

/-- Planner state while processing one directory: the in-memory
`existing_items` view plus the accumulated `operations` and `errors`. -/
structure PState where
  existing : List String
  ops : List Op
  errors : List PlanError
deriving Repr, DecidableEq

/-- Python `set.discard` on a list-represented set of names. -/
def setDiscard (x : String) (s : List String) : List String :=
  s.filter (fun y => !(y == x))

/-- Python `set.add` on a list-represented set of names. -/
def setAdd (x : String) (s : List String) : List String :=
  if s.contains x then s else s ++ [x]

/-- The body of the planner's per-entry loop (`collect_rename_operations`,
identical for files and directories up to the error message): compute
`new_name`; skip silently if unchanged; record an error and skip if the result
is invalid, or if it is already present in `existing_items`; otherwise append
the operation and update `existing_items`. -/
def planStep (to_remove : List String) (dirpath : String) (isDir : Bool)
    (st : PState) (name : String) : PState :=
  let new_name := remove_substrings name to_remove
  if new_name = name then st
  else if is_valid_filename new_name = false then
    { st with errors := st.errors ++ [.invalidName isDir name new_name] }
  else if st.existing.contains new_name && !(new_name == name) then
    { st with errors := st.errors ++ [.nameConflict isDir name new_name] }
  else
    { existing := setAdd new_name (setDiscard name st.existing)
      ops := st.ops ++ [⟨pathJoin dirpath name, pathJoin dirpath new_name, name, new_name⟩]
      errors := st.errors }

/-- Processing of one walk entry: snapshot `existing_items = os.listdir(dirpath)`
(all child names), then process the files (those passing the extension
filter), then the subdirectories. -/
def planEntry (to_remove : List String) (extensions : Option (List String))
    (acc : List Op × List PlanError) (e : WalkEntry) : List Op × List PlanError :=
  let st₁ := ((e.2.2.filter (fun f => should_process_file f extensions)).foldl
    (planStep to_remove e.1 false) ⟨e.2.1 ++ e.2.2, acc.1, acc.2⟩)
  let st₂ := e.2.1.foldl (planStep to_remove e.1 true) st₁
  (st₂.ops, st₂.errors)

/-- Planner `rename.collect_rename_operations`: fold the per-directory processing over
the bottom-up walk, accumulating operations and errors. -/
def collect_rename_operations (root_dir : String) (cs : FSForest)
    (to_remove : List String) (extensions : Option (List String)) :
    List Op × List PlanError :=
  (osWalk root_dir cs).foldl (planEntry to_remove extensions) ([], [])

/-- The operations contributed by a single walk entry alone. -/
def entryOps (to_remove : List String) (extensions : Option (List String))
    (e : WalkEntry) : List Op :=
  (planEntry to_remove extensions ([], []) e).1

/-- The planning errors contributed by a single walk entry alone. -/
def entryErrs (to_remove : List String) (extensions : Option (List String))
    (e : WalkEntry) : List PlanError :=
  (planEntry to_remove extensions ([], []) e).2

/-- The per-directory name-set evolution induced by executing a list of
operations: each rename removes the old name and adds the new one. -/
def applyOps (names : List String) (ops : List Op) : List String :=
  ops.foldl (fun ns op => setAdd op.new_name (setDiscard op.old_name ns)) names

/-! ## The executor (`rename.rename_files_and_dirs`, execution loop) -/

/-- Model of `rename.rename_item`: attempt one `os.rename`; on failure append an error
naming the items and report `False`.  The success of the underlying
`os.rename` call is an input (`ok`), since it depends on the operating
system. -/
def rename_item (ok : Bool) (op : Op) (all_errors : List (String × String)) :
    Bool × List (String × String) :=
  if ok then (true, all_errors) else (false, all_errors ++ [(op.old_name, op.new_name)])

/-- The execution loop of `rename_files_and_dirs`: apply each operation in plan
order; a success is appended to `successful_ops` as `(old_path, new_path)`; a
failure is recorded and the loop continues.  `ok` is the outcome oracle for
the underlying `os.rename` calls. -/
def executeOps (ok : Op → Bool) (ops : List Op) :
    List (String × String) × List (String × String) :=
  ops.foldl
    (fun acc op =>
      match rename_item (ok op) op acc.2 with
      | (true, errs) => (acc.1 ++ [(op.old_path, op.new_path)], errs)
      | (false, errs) => (acc.1, errs))
    ([], [])

/-! ## Undo generation and the rename state model -/

/-- Modelled from the spec: `generate_undo_script` is imported from the
package's `utils` module, but its definition is not present in the available
source tree.  Per the spec (§4.6), it emits one command per successful
operation, renaming `destination_path` back to `source_path`, with the
commands in reverse of the SuccessLog's order.  A command is modelled as the
`(from_path, to_path)` pair of the rename it performs. -/
def generate_undo_script (successful_ops : List (String × String)) :
    List (String × String) :=
  (successful_ops.map (fun p => (p.2, p.1))).reverse

/-- Effect of the rename `src → dst` on one absolute path: the path itself is
moved, every path strictly below it is rewritten under `dst`, all other paths
are untouched. -/
def rewritePath (src dst p : String) : String :=
  if p = src then dst
  else if (src.data ++ ['/']).isPrefixOf p.data then
    String.mk (dst.data ++ p.data.drop src.data.length)
  else p

/-- A filesystem state, as the list of absolute paths of all objects; one
rename rewrites every path. -/
def applyRen (st : List String) (cmd : String × String) : List String :=
  st.map (rewritePath cmd.1 cmd.2)

/-- Run a list of rename commands in order. -/
def runCmds (st : List String) (cmds : List (String × String)) : List String :=
  cmds.foldl applyRen st

/-- Test whether path `p` is the path `d` or lies strictly below it. -/
def underB (d p : String) : Bool := p == d || (d.data ++ ['/']).isPrefixOf p.data

/-- Each command's destination is fresh (no existing path at or below it) at
the moment the command runs — what the success of the corresponding
`os.rename` call guarantees. -/
def freshSeq : List String → List (String × String) → Bool
  | _, [] => true
  | st, c :: rest => st.all (fun p => !(underB c.2 p)) && freshSeq (applyRen st c) rest

/-! ## Safety guard and entry checks (`rename_directory.py`) -/

/-- The denylist of Unix system directories (`"/"` is checked separately,
by exact match only). -/
def unix_system_dirs : List String :=
  ["/bin", "/boot", "/dev", "/etc", "/lib", "/lib64",
   "/proc", "/root", "/sbin", "/sys", "/usr", "/var",
   "/opt", "/srv", "/tmp", "/run", "/mnt", "/media"]

/-- Guard `rename_directory.is_system_directory` on an absolute, normalised path
(the source first applies `os.path.abspath`); `home` models `Path.home()`.
`sys_path in path_obj.parents` is, for normalised absolute paths, the strict
prefix test `sys_path ++ "/" ≤ path`.  The Windows branch
(`platform.system() == "Windows"`) is not taken on the modelled platform.
Note the home directory is compared by equality only. -/
def is_system_directory (home : String) (path : String) : Bool :=
  if path = "/" then true
  else if unix_system_dirs.any
      (fun d => path == d || (d ++ "/").data.isPrefixOf path.data) then true
  else if path = home then true
  else false

/-- The fatal configuration errors of `rename_directory` (raised exceptions). -/
inductive ConfigError where
  | notADirectory
  | notWritable
  | protectedRoot
deriving Repr, DecidableEq

/-- Model of `rename_directory.rename_directory` up to handing over to
`rename_files_and_dirs`: the three configuration checks in source order, each
fatal; only when all pass does the traversal/planning stage run.  `children`
is `some cs` when `root_directory` is a directory with children `cs`
(`os.path.isdir`), `writable` models `os.access(root, W_OK)`. -/
def rename_directory (root_directory : String) (children : Option FSForest)
    (writable : Bool) (home : String) (substrings_to_remove : List String)
    (dry_run : Bool) (extensions : Option (List String)) :
    Except ConfigError (List Op × List PlanError) :=
  match children with
  | none => .error .notADirectory
  | some cs =>
    if !dry_run && !writable then .error .notWritable
    else if is_system_directory home root_directory then .error .protectedRoot
    else .ok (collect_rename_operations root_directory cs substrings_to_remove extensions)

/-! ## Lemmas: the name transformer -/

/-- Existence of a case-insensitive occurrence of `pat` in `s` (at any
position). -/
def ciContains (pat : List Char) : List Char → Bool
  | [] => ciPrefix pat []
  | c :: cs => ciPrefix pat (c :: cs) || ciContains pat cs

/-- Shape of any operation appended by a single planner step. -/
def opWf (d : String) (op : Op) : Prop :=
  op.new_name ≠ op.old_name ∧ is_valid_filename op.new_name = true ∧
    op.old_path = pathJoin d op.old_name ∧ op.new_path = pathJoin d op.new_name

/-- Collision freedom of an operation list against an evolving name set: each
destination is absent from the directory's names at the moment the operation
executes. -/
def collFree : List String → List Op → Prop
  | _, [] => True
  | ns, op :: rest =>
    op.new_name ∉ ns ∧ collFree (setAdd op.new_name (setDiscard op.old_name ns)) rest

/-- Character rendering of a component list: `/c₁/c₂/…/cₖ`. -/
def jnC (w : List String) : List Char := (w.map (fun n => '/' :: n.data)).flatten

/-- Path of a component list below the root. -/
def pathOfComps (root : String) (comps : List String) : String :=
  comps.foldl pathJoin root

/-- Name without a path separator. -/
def goodNameB (n : String) : Bool := !(n.data.contains '/')

/-- Sanity of one directory listing: all names are slash-free, and the
subdirectory names are distinct — both hold for any real directory. -/
def goodNames (p : List String × List String) : Bool :=
  (p.1 ++ p.2).all goodNameB && decide p.1.Nodup

/-- Sanity of a walk: every visited directory has a sane listing. -/
def goodWalkB (entries : List WalkEntry) : Bool :=
  entries.all (fun e => goodNames e.2)

/-- Component-list entries of the bottom-up walk: like `WalkEntry` but with
the directory path kept as the list of directory names below the root. -/
abbrev CEntry := List String × List String × List String

def goodWalkC (entries : List CEntry) : Bool :=
  entries.all (fun e => goodNames e.2)

/-- The bottom-up walk at the component-list level, mirroring `walkDirs`. -/
def walkDirsC (pre : List String) : FSForest → List CEntry
  | .nil => []
  | .cons (.file _) rest => walkDirsC pre rest
  | .cons (.dir n cs) rest =>
    (walkDirsC (pre ++ [n]) cs ++ [(pre ++ [n], dirNames cs, fileNames cs)])
      ++ walkDirsC pre rest

def osWalkC (cs : FSForest) : List CEntry :=
  walkDirsC [] cs ++ [([], dirNames cs, fileNames cs)]

def toSEntry (root : String) (e : CEntry) : WalkEntry :=
  (pathOfComps root e.1, e.2.1, e.2.2)

/-- Bottom-up separation relation between walk entries at the component
level: no candidate path of the later entry lies strictly below a candidate
path of the earlier one. -/
def RelC (E F : CEntry) : Prop :=
  ∀ nE nF : String, ¬ ((E.1 ++ [nE] <+: F.1 ++ [nF]) ∧ E.1 ++ [nE] ≠ F.1 ++ [nF])

/-- String-level separation between walk entries: no candidate source path of
the later entry lies strictly below a candidate source path of the earlier
entry. -/
def WalkRelS (E F : WalkEntry) : Prop :=
  ∀ nE ∈ E.2.1 ++ E.2.2, ∀ nF ∈ F.2.1 ++ F.2.2,
    ¬ (((pathJoin E.1 nE).data ++ ['/']) <+: (pathJoin F.1 nF).data)

theorem removeCIAux_eq_drop (pat : List Char) :
    ∀ (s : List Char) (k : Nat), removeCIAux pat k s = removeCI pat (s.drop k) := by
  intro s
  induction s with
  | nil => intro k; cases k <;> rfl
  | cons c cs ih =>
    intro k
    cases k with
    | zero => rfl
    | succ j => show removeCIAux pat j cs = _; rw [ih j]; rfl

/-- Scan-shaped equation for `removeCI`: at each position, either the pattern
matches case-insensitively and the match is deleted (the scan resumes after
it), or the character is kept. -/
theorem removeCI_cons (pat : List Char) (c : Char) (cs : List Char) :
    removeCI pat (c :: cs) =
      if ciPrefix pat (c :: cs) then removeCI pat (cs.drop (pat.length - 1))
      else c :: removeCI pat cs := by
  show removeCIAux pat 0 (c :: cs) = _
  rw [removeCIAux]
  split
  · exact removeCIAux_eq_drop pat cs (pat.length - 1)
  · rfl

theorem removeCIAux_sublist (pat : List Char) :
    ∀ (s : List Char) (k : Nat), (removeCIAux pat k s).Sublist s := by
  intro s
  induction s with
  | nil => intro k; cases k <;> exact List.Sublist.refl []
  | cons c cs ih =>
    intro k
    cases k with
    | succ j => exact (ih j).trans (List.sublist_cons_self c cs)
    | zero =>
      rw [removeCIAux]
      split
      · exact (ih (pat.length - 1)).trans (List.sublist_cons_self c cs)
      · exact (ih 0).cons₂ c

theorem removeCI_sublist (pat s : List Char) : (removeCI pat s).Sublist s :=
  removeCIAux_sublist pat s 0

theorem ciPrefix_nil_false (p : Char) (ps : List Char) : ciPrefix (p :: ps) [] = false := rfl

theorem removeCI_length_lt (pat : List Char) (hp : pat ≠ []) :
    ∀ s : List Char, ciContains pat s = true → (removeCI pat s).length < s.length := by
  intro s
  induction s with
  | nil =>
    intro h
    match pat, hp with
    | p :: ps, _ => simp [ciContains, ciPrefix_nil_false] at h
  | cons c cs ih =>
    intro h
    rw [removeCI_cons]
    split
    · have h₁ : (removeCI pat (cs.drop (pat.length - 1))).length ≤
          (cs.drop (pat.length - 1)).length :=
        (removeCI_sublist pat _).length_le
      have h₂ : (cs.drop (pat.length - 1)).length ≤ cs.length := (List.drop_sublist _ _).length_le
      simp only [List.length_cons]
      omega
    · rename_i hnp
      rw [ciContains, Bool.or_eq_true] at h
      rcases h with h | h
      · exact absurd h hnp
      · simpa using ih h

theorem removeCI_of_not_contains (pat : List Char) :
    ∀ s : List Char, ciContains pat s = false → removeCI pat s = s := by
  intro s
  induction s with
  | nil => intro _; rfl
  | cons c cs ih =>
    intro h
    rw [ciContains, Bool.or_eq_false_iff] at h
    rw [removeCI_cons]
    split
    · rename_i hcp
      rw [h.1] at hcp
      exact absurd hcp (by simp)
    · rw [ih h.2]

theorem removeCI_eq_self_iff (pat : List Char) (hp : pat ≠ []) (s : List Char) :
    removeCI pat s = s ↔ ciContains pat s = false := by
  constructor
  · intro h
    by_contra hc
    have hc' : ciContains pat s = true := by
      cases hcc : ciContains pat s
      · exact absurd hcc hc
      · rfl
    have := removeCI_length_lt pat hp s hc'
    rw [h] at this
    omega
  · exact removeCI_of_not_contains pat s

theorem remove_substrings_sublist :
    ∀ (l : List String) (s : String), (remove_substrings s l).data.Sublist s.data := by
  intro l
  induction l with
  | nil => intro s; exact List.Sublist.refl _
  | cons sub rest ih =>
    intro s
    show (remove_substrings (if sub = "" then s
        else (removeCI sub.data s.data).asString) rest).data.Sublist s.data
    split
    · exact ih s
    · exact (ih _).trans (by
        rw [show ((removeCI sub.data s.data).asString).data = removeCI sub.data s.data from rfl]
        exact removeCI_sublist sub.data s.data)

theorem remove_substrings_skip_empty (s : String) (l₁ l₂ : List String) :
    remove_substrings s (l₁ ++ "" :: l₂) = remove_substrings s (l₁ ++ l₂) := by
  show List.foldl _ s (l₁ ++ "" :: l₂) = List.foldl _ s (l₁ ++ l₂)
  rw [List.foldl_append, List.foldl_append]
  rfl

theorem remove_substrings_single_eq_iff (s sub : String) (h : sub ≠ "") :
    remove_substrings s [sub] = s ↔ ciContains sub.data s.data = false := by
  have hd : sub.data ≠ [] := by
    intro hc
    apply h
    cases sub with
    | mk d => cases hc; rfl
  show (if sub = "" then s else (removeCI sub.data s.data).asString) = s ↔ _
  rw [if_neg h]
  constructor
  · intro he
    have hdata : removeCI sub.data s.data = s.data := congrArg String.data he
    exact (removeCI_eq_self_iff sub.data hd s.data).mp hdata
  · intro hnc
    rw [(removeCI_eq_self_iff sub.data hd s.data).mpr hnc]
    cases s with
    | mk d => rfl

/-- C4: the name transformer deletes every case-insensitive occurrence of each
non-empty substring (a pass over a non-empty substring leaves the string
unchanged exactly when there is no case-insensitive occurrence, and any
occurrence is deleted by the left-to-right scan, see `removeCI_cons`), leaves
every retained character — hence its case — unchanged (the result is a
character sublist of the input), skips empty substrings as no-ops, and never
fails (it is a total function); in particular
`transform("MyFILE_old.txt", {"old"}) = "MyFILE_.txt"`. -/
theorem C4_transformer_behaviour :
    remove_substrings "MyFILE_old.txt" ["old"] = "MyFILE_.txt"
    ∧ (∀ (s : String) (l₁ l₂ : List String),
        remove_substrings s (l₁ ++ "" :: l₂) = remove_substrings s (l₁ ++ l₂))
    ∧ (∀ (l : List String) (s : String), (remove_substrings s l).data.Sublist s.data)
    ∧ (∀ (s sub : String), sub ≠ "" →
        (remove_substrings s [sub] = s ↔ ciContains sub.data s.data = false)) := by
  refine ⟨by decide, remove_substrings_skip_empty, remove_substrings_sublist,
    remove_substrings_single_eq_iff⟩

/-- Witness for C4 at concrete inputs. -/
theorem C4_transformer_behaviour_witness :
    remove_substrings "MyFILE_old.txt" ["old"] = "MyFILE_.txt"
    ∧ (remove_substrings "ab_c" ["x"] = "ab_c" ↔ ciContains "x".data "ab_c".data = false) :=
  ⟨C4_transformer_behaviour.1,
    C4_transformer_behaviour.2.2.2 "ab_c" "x" (by decide)⟩

/-! ## Lemmas: the name validator -/

theorem pyStrip_eq_nil_iff (s : List Char) : pyStrip s = [] ↔ s.all pyIsSpace = true := by
  unfold pyStrip
  rw [List.reverse_eq_nil_iff, List.dropWhile_eq_nil_iff]
  constructor
  · intro h
    rw [List.all_eq_true]
    intro x hx
    rcases List.mem_append.mp
        (by rw [List.takeWhile_append_dropWhile (p := pyIsSpace)]; exact hx :
          x ∈ s.takeWhile pyIsSpace ++ s.dropWhile pyIsSpace) with hx' | hx'
    · exact List.mem_takeWhile_imp hx'
    · exact h x (List.mem_reverse.mpr hx')
  · intro h x hx
    exact List.all_eq_true.mp h x ((List.dropWhile_sublist pyIsSpace).subset
      (List.mem_reverse.mp hx))

/-- C5: the name validator returns `false` exactly when the name is empty or
whitespace-only (`all pyIsSpace`, which subsumes the empty string), is the
literal `.` or `..`, or consists solely of `.` and space characters (so that
removing them leaves the empty string); it returns `true` for every other
string, and is a pure total function. -/
theorem C5_validator_false_iff (name : String) :
    is_valid_filename name = false ↔
      (name.data.all pyIsSpace = true ∨ name = "." ∨ name = ".."
        ∨ name.data.all (fun c => c == '.' || c == ' ') = true) := by
  have hcond1 : (name = "" || (pyStrip name.data).isEmpty) = true ↔
      name.data.all pyIsSpace = true := by
    rw [Bool.or_eq_true]
    constructor
    · rintro (h | h)
      · have hne : name = "" := of_decide_eq_true h
        subst hne; rfl
      · exact (pyStrip_eq_nil_iff _).mp (List.isEmpty_iff.mp h)
    · intro h
      exact Or.inr (List.isEmpty_iff.mpr ((pyStrip_eq_nil_iff _).mpr h))
  have hcond2 : (name = "." || name = "..") = true ↔ (name = "." ∨ name = "..") := by
    rw [Bool.or_eq_true]
    constructor
    · rintro (h | h)
      · exact Or.inl (of_decide_eq_true h)
      · exact Or.inr (of_decide_eq_true h)
    · rintro (h | h)
      · exact Or.inl (decide_eq_true h)
      · exact Or.inr (decide_eq_true h)
  have hcond3 : (name.data.filter (fun c => !(c == '.') && !(c == ' '))).isEmpty = true ↔
      name.data.all (fun c => c == '.' || c == ' ') = true := by
    rw [List.isEmpty_iff, List.filter_eq_nil_iff, List.all_eq_true]
    constructor
    · intro h c hc
      have := h c hc
      by_cases h₁ : c = '.'
      · simp [h₁]
      · by_cases h₂ : c = ' '
        · simp [h₂]
        · exact absurd (by simp [h₁, h₂]) this
    · intro h c hc hcon
      have := h c hc
      rcases Bool.or_eq_true_iff.mp this with h' | h'
      · simp [beq_iff_eq.mp h'] at hcon
      · simp [beq_iff_eq.mp h'] at hcon
  unfold is_valid_filename
  by_cases h1 : (name = "" || (pyStrip name.data).isEmpty) = true
  · rw [if_pos h1]
    exact iff_of_true rfl (Or.inl (hcond1.mp h1))
  · rw [if_neg h1]
    by_cases h2 : (name = "." || name = "..") = true
    · rw [if_pos h2]
      refine iff_of_true rfl ?_
      rcases hcond2.mp h2 with h' | h'
      · exact Or.inr (Or.inl h')
      · exact Or.inr (Or.inr (Or.inl h'))
    · rw [if_neg h2]
      by_cases h3 : (name.data.filter (fun c => !(c == '.') && !(c == ' '))).isEmpty = true
      · rw [if_pos h3]
        exact iff_of_true rfl (Or.inr (Or.inr (Or.inr (hcond3.mp h3))))
      · rw [if_neg h3]
        refine iff_of_false (by simp) ?_
        rintro (h | h | h | h)
        · exact absurd (hcond1.mpr h) h1
        · exact absurd (hcond2.mpr (Or.inl h)) h2
        · exact absurd (hcond2.mpr (Or.inr h)) h2
        · exact absurd (hcond3.mpr h) h3

/-- Witness for C5 at concrete inputs (an iff is applied in both directions). -/
theorem C5_validator_false_iff_witness :
    is_valid_filename " . . " = false :=
  (C5_validator_false_iff " . . ").mpr (Or.inr (Or.inr (Or.inr (by decide))))

/-! ## Lemmas: planner decomposition -/

theorem planStep_decomp (tr : List String) (d : String) (b : Bool) (ex : List String)
    (ops : List Op) (errs : List PlanError) (n : String) :
    planStep tr d b ⟨ex, ops, errs⟩ n =
      ⟨(planStep tr d b ⟨ex, [], []⟩ n).existing,
       ops ++ (planStep tr d b ⟨ex, [], []⟩ n).ops,
       errs ++ (planStep tr d b ⟨ex, [], []⟩ n).errors⟩ := by
  by_cases h1 : remove_substrings n tr = n
  · simp [planStep, h1]
  · by_cases h2 : is_valid_filename (remove_substrings n tr) = false
    · simp [planStep, h1, h2]
    · by_cases h3 : remove_substrings n tr ∈ ex
      · simp [planStep, h1, h2, h3]
      · simp [planStep, h1, h2, h3]

theorem foldl_planStep_decomp (tr : List String) (d : String) (b : Bool) :
    ∀ (names : List String) (ex : List String) (ops : List Op) (errs : List PlanError),
    names.foldl (planStep tr d b) ⟨ex, ops, errs⟩ =
      ⟨(names.foldl (planStep tr d b) ⟨ex, [], []⟩).existing,
       ops ++ (names.foldl (planStep tr d b) ⟨ex, [], []⟩).ops,
       errs ++ (names.foldl (planStep tr d b) ⟨ex, [], []⟩).errors⟩ := by
  intro names
  induction names with
  | nil => intro ex ops errs; simp
  | cons n rest ih =>
    intro ex ops errs
    show rest.foldl (planStep tr d b) (planStep tr d b ⟨ex, ops, errs⟩ n) = _
    rw [planStep_decomp]
    rw [ih (planStep tr d b ⟨ex, [], []⟩ n).existing
      (ops ++ (planStep tr d b ⟨ex, [], []⟩ n).ops)
      (errs ++ (planStep tr d b ⟨ex, [], []⟩ n).errors)]
    have hrhs : rest.foldl (planStep tr d b) (planStep tr d b ⟨ex, [], []⟩ n) =
        ⟨(rest.foldl (planStep tr d b)
            ⟨(planStep tr d b ⟨ex, [], []⟩ n).existing, [], []⟩).existing,
         (planStep tr d b ⟨ex, [], []⟩ n).ops ++
           (rest.foldl (planStep tr d b)
             ⟨(planStep tr d b ⟨ex, [], []⟩ n).existing, [], []⟩).ops,
         (planStep tr d b ⟨ex, [], []⟩ n).errors ++
           (rest.foldl (planStep tr d b)
             ⟨(planStep tr d b ⟨ex, [], []⟩ n).existing, [], []⟩).errors⟩ := by
      conv at ih => intro ex ops errs; rw [eq_comm]
      rw [show (planStep tr d b ⟨ex, [], []⟩ n) =
          (⟨(planStep tr d b ⟨ex, [], []⟩ n).existing,
            (planStep tr d b ⟨ex, [], []⟩ n).ops,
            (planStep tr d b ⟨ex, [], []⟩ n).errors⟩ : PState) from rfl]
      rw [ih]
    show (⟨_, _, _⟩ : PState) = ⟨_, _, _⟩
    rw [show ((n :: rest).foldl (planStep tr d b) ⟨ex, [], []⟩) =
        rest.foldl (planStep tr d b) (planStep tr d b ⟨ex, [], []⟩ n) from rfl]
    rw [hrhs]
    simp [List.append_assoc]

theorem planEntry_eq (tr : List String) (exts : Option (List String))
    (acc : List Op × List PlanError) (e : WalkEntry) :
    planEntry tr exts acc e = (acc.1 ++ entryOps tr exts e, acc.2 ++ entryErrs tr exts e) := by
  obtain ⟨ops, errs⟩ := acc
  simp only [planEntry, entryOps, entryErrs]
  rw [foldl_planStep_decomp tr e.1 false _ _ ops errs]
  generalize (List.foldl (planStep tr e.1 false)
      (⟨e.2.1 ++ e.2.2, [], []⟩ : PState)
      (List.filter (fun f => should_process_file f exts) e.2.2)) = X
  obtain ⟨xe, xo, xr⟩ := X
  rw [foldl_planStep_decomp tr e.1 true e.2.1 xe (ops ++ xo) (errs ++ xr),
    foldl_planStep_decomp tr e.1 true e.2.1 xe xo xr]
  simp [List.append_assoc]

theorem foldl_planEntry_flatten (tr : List String) (exts : Option (List String)) :
    ∀ (entries : List WalkEntry) (acc : List Op × List PlanError),
    entries.foldl (planEntry tr exts) acc =
      (acc.1 ++ (entries.map (entryOps tr exts)).flatten,
       acc.2 ++ (entries.map (entryErrs tr exts)).flatten) := by
  intro entries
  induction entries with
  | nil => intro acc; simp
  | cons e rest ih =>
    intro acc
    show rest.foldl (planEntry tr exts) (planEntry tr exts acc e) = _
    rw [planEntry_eq, ih]
    simp [List.append_assoc]

/-- The plan is the concatenation, in walk order, of the contributions of the
individual walk entries: each directory is planned against its own
`os.listdir` snapshot, independently of other directories' operations and
errors. -/
theorem collect_eq_flatten (root : String) (cs : FSForest) (tr : List String)
    (exts : Option (List String)) :
    collect_rename_operations root cs tr exts =
      (((osWalk root cs).map (entryOps tr exts)).flatten,
       ((osWalk root cs).map (entryErrs tr exts)).flatten) := by
  show (osWalk root cs).foldl (planEntry tr exts) ([], []) = _
  rw [foldl_planEntry_flatten]
  simp

/-! ## C3: per-entry planner behaviour -/

/-- C3: for every entry the planner visits, with `newName` the transformed
name: if `newName` equals the original name, nothing happens (no operation, no
error); if `newName` is invalid, an invalid-name PlanningError is recorded and
the entry is skipped; if `newName` is already present in the `existingNames`
view, a name-conflict PlanningError is recorded and the entry is skipped;
otherwise the operation is appended and `existingNames` is updated by
discarding the original name and adding the new one (so later entries in the
same directory are checked against the post-rename state).  In particular, a
directory containing `a_old.txt` and `a.txt` with substring `"_old"` yields a
name-conflict PlanningError for `a_old.txt` and no operations. -/
theorem C3_planner_entry_cases :
    (∀ (tr : List String) (d : String) (b : Bool) (st : PState) (n : String),
      (remove_substrings n tr = n → planStep tr d b st n = st)
      ∧ (remove_substrings n tr ≠ n → is_valid_filename (remove_substrings n tr) = false →
          planStep tr d b st n =
            ⟨st.existing, st.ops, st.errors ++ [.invalidName b n (remove_substrings n tr)]⟩)
      ∧ (remove_substrings n tr ≠ n → is_valid_filename (remove_substrings n tr) = true →
          remove_substrings n tr ∈ st.existing →
          planStep tr d b st n =
            ⟨st.existing, st.ops, st.errors ++ [.nameConflict b n (remove_substrings n tr)]⟩)
      ∧ (remove_substrings n tr ≠ n → is_valid_filename (remove_substrings n tr) = true →
          remove_substrings n tr ∉ st.existing →
          planStep tr d b st n =
            ⟨setAdd (remove_substrings n tr) (setDiscard n st.existing),
             st.ops ++ [⟨pathJoin d n, pathJoin d (remove_substrings n tr), n,
               remove_substrings n tr⟩],
             st.errors⟩))
    ∧ collect_rename_operations "/r" (.cons (.file "a_old.txt") (.cons (.file "a.txt") .nil))
        ["_old"] none = ([], [.nameConflict false "a_old.txt" "a.txt"]) := by
  refine ⟨fun tr d b st n => ⟨?_, ?_, ?_, ?_⟩, by decide⟩
  · intro h1
    simp [planStep, h1]
  · intro h1 h2
    simp [planStep, h1, h2]
  · intro h1 h2 h3
    simp [planStep, h1, h2, h3]
  · intro h1 h2 h3
    simp [planStep, h1, h2, h3]

/-- Witness for C3: the no-op case, the conflict case and the concrete
directory, at concrete inputs. -/
theorem C3_planner_entry_cases_witness :
    planStep ["_z"] "/d" false ⟨["a"], [], []⟩ "a" = ⟨["a"], [], []⟩
    ∧ planStep ["_old"] "/d" false ⟨["a_old.txt", "a.txt"], [], []⟩ "a_old.txt"
        = ⟨["a_old.txt", "a.txt"], [], [.nameConflict false "a_old.txt" "a.txt"]⟩
    ∧ collect_rename_operations "/r" (.cons (.file "a_old.txt") (.cons (.file "a.txt") .nil))
        ["_old"] none = ([], [.nameConflict false "a_old.txt" "a.txt"]) :=
  ⟨(C3_planner_entry_cases.1 ["_z"] "/d" false ⟨["a"], [], []⟩ "a").1 (by decide),
   (C3_planner_entry_cases.1 ["_old"] "/d" false ⟨["a_old.txt", "a.txt"], [], []⟩
     "a_old.txt").2.2.1 (by decide) (by decide) (by decide),
   C3_planner_entry_cases.2⟩

/-! ## C10: well-formedness of planned operations -/

theorem planStep_ops_wf (tr : List String) (d : String) (b : Bool) (st : PState) (n : String) :
    ∀ op ∈ (planStep tr d b st n).ops, op ∈ st.ops ∨ opWf d op := by
  intro op hop
  by_cases h1 : remove_substrings n tr = n
  · simp [planStep, h1] at hop
    exact Or.inl hop
  · by_cases h2 : is_valid_filename (remove_substrings n tr) = false
    · simp [planStep, h1, h2] at hop
      exact Or.inl hop
    · by_cases h3 : remove_substrings n tr ∈ st.existing
      · simp [planStep, h1, h2, h3] at hop
        exact Or.inl hop
      · simp [planStep, h1, h2, h3] at hop
        rcases hop with hop | hop
        · exact Or.inl hop
        · refine Or.inr ?_
          subst hop
          refine ⟨fun hc => h1 hc, ?_, rfl, rfl⟩
          cases hv : is_valid_filename (remove_substrings n tr)
          · exact absurd hv h2
          · rfl

theorem foldl_planStep_ops_wf (tr : List String) (d : String) (b : Bool) :
    ∀ (names : List String) (st : PState) (op : Op),
      op ∈ (names.foldl (planStep tr d b) st).ops → op ∈ st.ops ∨ opWf d op := by
  intro names
  induction names with
  | nil => intro st op hop; exact Or.inl hop
  | cons n rest ih =>
    intro st op hop
    rcases ih (planStep tr d b st n) op hop with h | h
    · exact planStep_ops_wf tr d b st n op h
    · exact Or.inr h

theorem entryOps_wf (tr : List String) (exts : Option (List String)) (e : WalkEntry) :
    ∀ op ∈ entryOps tr exts e, opWf e.1 op := by
  intro op hop
  rcases foldl_planStep_ops_wf tr e.1 true _ _ op hop with h | h
  · rcases foldl_planStep_ops_wf tr e.1 false _ _ op h with h' | h'
    · exact absurd h' (List.not_mem_nil op)
    · exact h'
  · exact h

/-- C10: every operation in the Plan renames in place (source and destination
paths share the same parent directory), changes the name, and its new name
passes the validator. -/
theorem C10_plan_ops_wellformed (root : String) (cs : FSForest) (tr : List String)
    (exts : Option (List String)) :
    ∀ op ∈ (collect_rename_operations root cs tr exts).1,
      op.new_name ≠ op.old_name ∧ is_valid_filename op.new_name = true ∧
        ∃ d, op.old_path = pathJoin d op.old_name ∧ op.new_path = pathJoin d op.new_name := by
  intro op hop
  rw [collect_eq_flatten] at hop
  rcases List.mem_flatten.mp hop with ⟨l, hl, hop'⟩
  rcases List.mem_map.mp hl with ⟨e, _, rfl⟩
  rcases entryOps_wf tr exts e op hop' with ⟨h1, h2, h3, h4⟩
  exact ⟨h1, h2, e.1, h3, h4⟩

/-- Witness for C10 at a concrete plan and operation. -/
theorem C10_plan_ops_wellformed_witness :
    (⟨"/r/a_old.txt", "/r/a.txt", "a_old.txt", "a.txt"⟩ : Op).new_name ≠ "a_old.txt"
    ∧ (⟨"/r/a_old.txt", "/r/a.txt", "a_old.txt", "a.txt"⟩ : Op) ∈
        (collect_rename_operations "/r" (.cons (.file "a_old.txt") .nil) ["_old"] none).1 := by
  have h := C10_plan_ops_wellformed "/r" (.cons (.file "a_old.txt") .nil) ["_old"] none
    ⟨"/r/a_old.txt", "/r/a.txt", "a_old.txt", "a.txt"⟩ (by decide)
  exact ⟨h.1, by decide⟩

/-! ## C2: intra-directory collision freedom -/

theorem planStep_skip (tr : List String) (d : String) (b : Bool) (st : PState) (n : String)
    (h1 : remove_substrings n tr = n) : planStep tr d b st n = st := by
  simp [planStep, h1]

theorem planStep_invalid (tr : List String) (d : String) (b : Bool) (ex : List String)
    (ops0 : List Op) (errs0 : List PlanError) (n : String)
    (h1 : remove_substrings n tr ≠ n)
    (h2 : is_valid_filename (remove_substrings n tr) = false) :
    planStep tr d b ⟨ex, ops0, errs0⟩ n =
      ⟨ex, ops0, errs0 ++ [.invalidName b n (remove_substrings n tr)]⟩ := by
  simp [planStep, h1, h2]

theorem planStep_conflict (tr : List String) (d : String) (b : Bool) (ex : List String)
    (ops0 : List Op) (errs0 : List PlanError) (n : String)
    (h1 : remove_substrings n tr ≠ n)
    (h2 : is_valid_filename (remove_substrings n tr) = true)
    (h3 : remove_substrings n tr ∈ ex) :
    planStep tr d b ⟨ex, ops0, errs0⟩ n =
      ⟨ex, ops0, errs0 ++ [.nameConflict b n (remove_substrings n tr)]⟩ := by
  simp [planStep, h1, h2, h3]

theorem planStep_append (tr : List String) (d : String) (b : Bool) (ex : List String)
    (ops0 : List Op) (errs0 : List PlanError) (n : String)
    (h1 : remove_substrings n tr ≠ n)
    (h2 : is_valid_filename (remove_substrings n tr) = true)
    (h3 : remove_substrings n tr ∉ ex) :
    planStep tr d b ⟨ex, ops0, errs0⟩ n =
      ⟨setAdd (remove_substrings n tr) (setDiscard n ex),
       ops0 ++ [⟨pathJoin d n, pathJoin d (remove_substrings n tr), n,
         remove_substrings n tr⟩],
       errs0⟩ := by
  simp [planStep, h1, h2, h3]

theorem mem_setDiscard_iff (y x : String) (s : List String) :
    y ∈ setDiscard x s ↔ y ∈ s ∧ y ≠ x := by
  unfold setDiscard
  rw [List.mem_filter]
  simp

theorem mem_setAdd_iff (y x : String) (s : List String) :
    y ∈ setAdd x s ↔ y ∈ s ∨ y = x := by
  unfold setAdd
  split
  · constructor
    · exact Or.inl
    · rintro (h | h)
      · exact h
      · subst h
        rename_i hc
        simpa using hc
  · rw [List.mem_append]
    simp

theorem collFree_append : ∀ (opsA : List Op) (ns : List String) (opsB : List Op),
    collFree ns (opsA ++ opsB) ↔ (collFree ns opsA ∧ collFree (applyOps ns opsA) opsB) := by
  intro opsA
  induction opsA with
  | nil =>
    intro ns opsB
    show collFree ns opsB ↔ (True ∧ collFree ns opsB)
    simp
  | cons op rest ih =>
    intro ns opsB
    show (op.new_name ∉ ns ∧ collFree _ (rest ++ opsB)) ↔ _
    rw [ih]
    show _ ↔ ((op.new_name ∉ ns ∧ collFree _ rest) ∧ _)
    rw [and_assoc]
    rfl

theorem foldl_collFree (tr : List String) (d : String) (b : Bool) :
    ∀ (names : List String) (ex : List String),
      collFree ex ((names.foldl (planStep tr d b) ⟨ex, [], []⟩).ops) ∧
      (names.foldl (planStep tr d b) ⟨ex, [], []⟩).existing =
        applyOps ex ((names.foldl (planStep tr d b) ⟨ex, [], []⟩).ops) := by
  intro names
  induction names with
  | nil => intro ex; exact ⟨trivial, rfl⟩
  | cons n rest ih =>
    intro ex
    show collFree ex ((rest.foldl (planStep tr d b) (planStep tr d b ⟨ex, [], []⟩ n)).ops) ∧
      (rest.foldl (planStep tr d b) (planStep tr d b ⟨ex, [], []⟩ n)).existing =
        applyOps ex ((rest.foldl (planStep tr d b) (planStep tr d b ⟨ex, [], []⟩ n)).ops)
    by_cases h1 : remove_substrings n tr = n
    · rw [planStep_skip tr d b _ n h1]
      exact ih ex
    · by_cases h2 : is_valid_filename (remove_substrings n tr) = false
      · rw [planStep_invalid tr d b ex [] [] n h1 h2, List.nil_append,
          foldl_planStep_decomp tr d b rest ex []
            [.invalidName b n (remove_substrings n tr)]]
        simpa using ih ex
      · have h2' : is_valid_filename (remove_substrings n tr) = true := by
          cases hv : is_valid_filename (remove_substrings n tr)
          · exact absurd hv h2
          · rfl
        by_cases h3 : remove_substrings n tr ∈ ex
        · rw [planStep_conflict tr d b ex [] [] n h1 h2' h3, List.nil_append,
            foldl_planStep_decomp tr d b rest ex []
              [.nameConflict b n (remove_substrings n tr)]]
          simpa using ih ex
        · rw [planStep_append tr d b ex [] [] n h1 h2' h3, List.nil_append,
            foldl_planStep_decomp tr d b rest
              (setAdd (remove_substrings n tr) (setDiscard n ex))
              [⟨pathJoin d n, pathJoin d (remove_substrings n tr), n, remove_substrings n tr⟩]
              []]
          constructor
          · show collFree ex (_ :: _)
            refine ⟨h3, ?_⟩
            simpa using (ih (setAdd (remove_substrings n tr) (setDiscard n ex))).1
          · show _ = applyOps ex (_ :: _)
            simpa using (ih (setAdd (remove_substrings n tr) (setDiscard n ex))).2

theorem entryOps_collFree (tr : List String) (exts : Option (List String)) (e : WalkEntry) :
    collFree (e.2.1 ++ e.2.2) (entryOps tr exts e) := by
  show collFree (e.2.1 ++ e.2.2)
    ((e.2.1.foldl (planStep tr e.1 true)
      ((e.2.2.filter (fun f => should_process_file f exts)).foldl
        (planStep tr e.1 false) ⟨e.2.1 ++ e.2.2, [], []⟩)).ops)
  generalize hst : ((e.2.2.filter (fun f => should_process_file f exts)).foldl
      (planStep tr e.1 false) (⟨e.2.1 ++ e.2.2, [], []⟩ : PState)) = st₁
  have hfiles := foldl_collFree tr e.1 false
    (e.2.2.filter (fun f => should_process_file f exts)) (e.2.1 ++ e.2.2)
  rw [hst] at hfiles
  obtain ⟨xe, xo, xr⟩ := st₁
  rw [foldl_planStep_decomp tr e.1 true e.2.1 xe xo xr]
  have hdirs := foldl_collFree tr e.1 true e.2.1 xe
  show collFree (e.2.1 ++ e.2.2) (xo ++ (e.2.1.foldl (planStep tr e.1 true)
    ⟨xe, [], []⟩).ops)
  rw [collFree_append]
  refine ⟨hfiles.1, ?_⟩
  have hex : applyOps (e.2.1 ++ e.2.2) xo = xe := hfiles.2.symm
  rw [hex]
  exact hdirs.1

theorem collFree_iff_take (ops : List Op) : ∀ (ns : List String),
    collFree ns ops ↔
      ∀ (k : Nat) (hk : k < ops.length), ops[k].new_name ∉ applyOps ns (ops.take k) := by
  induction ops with
  | nil =>
    intro ns
    constructor
    · intro _ k hk; exact absurd hk (by simp)
    · intro _; trivial
  | cons op rest ih =>
    intro ns
    constructor
    · rintro ⟨h0, hrec⟩ k hk
      match k with
      | 0 => simpa [applyOps] using h0
      | j + 1 =>
        have hj : j < rest.length := by simpa using hk
        have := (ih _).mp hrec j hj
        simpa [applyOps] using this
    · intro h
      refine ⟨by simpa [applyOps] using h 0 (by simp), (ih _).mpr ?_⟩
      intro j hj
      have := h (j + 1) (by simpa using Nat.succ_lt_succ hj)
      simpa [applyOps] using this

theorem applyOps_mem_untouched : ∀ (ops : List Op) (ns : List String) (s : String),
    s ∈ ns → (∀ op ∈ ops, op.old_name ≠ s) → s ∈ applyOps ns ops := by
  intro ops
  induction ops with
  | nil => intro ns s hs _; exact hs
  | cons op rest ih =>
    intro ns s hs hold
    show s ∈ applyOps (setAdd op.new_name (setDiscard op.old_name ns)) rest
    apply ih
    · rw [mem_setAdd_iff]
      refine Or.inl ((mem_setDiscard_iff s op.old_name ns).mpr ⟨hs, ?_⟩)
      exact fun hc => (hold op (by simp)) hc.symm
    · intro op' hop'
      exact hold op' (List.mem_cons_of_mem _ hop')

theorem foldl_news_inv (tr : List String) (d : String) (b : Bool) :
    ∀ (names rest : List String) (st : PState),
      (names ++ rest).Nodup →
      (∀ m ∈ names ++ rest, m ∈ st.existing) →
      (∀ op ∈ st.ops, op.new_name ∈ st.existing ∧ op.new_name ∉ names ++ rest) →
      (st.ops.map (fun op => op.new_name)).Nodup →
      ((∀ m ∈ rest, m ∈ (names.foldl (planStep tr d b) st).existing) ∧
       (∀ op ∈ (names.foldl (planStep tr d b) st).ops,
         op.new_name ∈ (names.foldl (planStep tr d b) st).existing ∧ op.new_name ∉ rest) ∧
       (((names.foldl (planStep tr d b) st).ops.map (fun op => op.new_name)).Nodup)) := by
  intro names
  induction names with
  | nil =>
    intro rest st hnd hm hops hnews
    exact ⟨fun m hm' => hm m hm', fun op hop => hops op hop, hnews⟩
  | cons n names ih =>
    intro rest st hnd hm hops hnews
    obtain ⟨ex0, ops0, errs0⟩ := st
    rw [show (n :: names).foldl (planStep tr d b) ⟨ex0, ops0, errs0⟩ =
        names.foldl (planStep tr d b) (planStep tr d b ⟨ex0, ops0, errs0⟩ n) from rfl]
    have hnd' : (names ++ rest).Nodup := by
      rw [show (n :: names) ++ rest = n :: (names ++ rest) from rfl] at hnd
      exact hnd.of_cons
    have hnmem : n ∉ names ++ rest := by
      rw [show (n :: names) ++ rest = n :: (names ++ rest) from rfl] at hnd
      exact (List.nodup_cons.mp hnd).1
    by_cases h1 : remove_substrings n tr = n
    · rw [planStep_skip tr d b _ n h1]
      exact ih rest ⟨ex0, ops0, errs0⟩ hnd'
        (fun m hm' => hm m (List.mem_cons_of_mem n hm'))
        (fun op hop => ⟨(hops op hop).1,
          fun hc => (hops op hop).2 (List.mem_cons_of_mem n hc)⟩)
        hnews
    · by_cases h2 : is_valid_filename (remove_substrings n tr) = false
      · rw [planStep_invalid tr d b ex0 ops0 errs0 n h1 h2]
        exact ih rest ⟨ex0, ops0, _⟩ hnd'
          (fun m hm' => hm m (List.mem_cons_of_mem n hm'))
          (fun op hop => ⟨(hops op hop).1,
            fun hc => (hops op hop).2 (List.mem_cons_of_mem n hc)⟩)
          hnews
      · have h2' : is_valid_filename (remove_substrings n tr) = true := by
          cases hv : is_valid_filename (remove_substrings n tr)
          · exact absurd hv h2
          · rfl
        by_cases h3 : remove_substrings n tr ∈ ex0
        · rw [planStep_conflict tr d b ex0 ops0 errs0 n h1 h2' h3]
          exact ih rest ⟨ex0, ops0, _⟩ hnd'
            (fun m hm' => hm m (List.mem_cons_of_mem n hm'))
            (fun op hop => ⟨(hops op hop).1,
              fun hc => (hops op hop).2 (List.mem_cons_of_mem n hc)⟩)
            hnews
        · rw [planStep_append tr d b ex0 ops0 errs0 n h1 h2' h3]
          apply ih rest _ hnd'
          · intro m hm'
            show m ∈ setAdd (remove_substrings n tr) (setDiscard n ex0)
            rw [mem_setAdd_iff]
            refine Or.inl ((mem_setDiscard_iff m n ex0).mpr
              ⟨hm m (List.mem_cons_of_mem n hm'), ?_⟩)
            intro hc
            subst hc
            exact hnmem hm'
          · intro op hop
            rcases List.mem_append.mp hop with hop' | hop'
            · refine ⟨?_, fun hc => (hops op hop').2 (List.mem_cons_of_mem n hc)⟩
              show op.new_name ∈ setAdd (remove_substrings n tr) (setDiscard n ex0)
              rw [mem_setAdd_iff]
              refine Or.inl ((mem_setDiscard_iff _ n ex0).mpr
                ⟨(hops op hop').1, ?_⟩)
              intro hc
              exact (hops op hop').2 (hc ▸ List.mem_cons_self n (names ++ rest))
            · have hop'' : op = ⟨pathJoin d n, pathJoin d (remove_substrings n tr), n,
                  remove_substrings n tr⟩ := by simpa using hop'
              subst hop''
              constructor
              · show remove_substrings n tr ∈
                  setAdd (remove_substrings n tr) (setDiscard n ex0)
                rw [mem_setAdd_iff]
                exact Or.inr rfl
              · intro hc
                exact h3 (hm _ (List.mem_cons_of_mem n hc))
          · have hgoal : ((ops0 ++ [(⟨pathJoin d n, pathJoin d (remove_substrings n tr), n,
                remove_substrings n tr⟩ : Op)]).map (fun op => op.new_name)).Nodup := by
              rw [List.map_append, List.nodup_append]
              refine ⟨hnews, by simp, ?_⟩
              intro x hx
              rcases List.mem_map.mp hx with ⟨op, hop, rfl⟩
              simp only [List.map_cons, List.map_nil, List.mem_singleton]
              intro hc
              exact h3 (hc ▸ (hops op hop).1)
            exact hgoal

theorem entryOps_news_nodup (tr : List String) (exts : Option (List String)) (e : WalkEntry)
    (hnd : (e.2.1 ++ e.2.2).Nodup) :
    ((entryOps tr exts e).map (fun op => op.new_name)).Nodup := by
  have hndf : ((e.2.2.filter (fun f => should_process_file f exts)) ++ e.2.1).Nodup := by
    rw [List.nodup_append] at hnd ⊢
    refine ⟨hnd.2.1.filter _, hnd.1, ?_⟩
    intro x hx hx'
    exact hnd.2.2 hx' (List.mem_of_mem_filter hx)
  have hmem : ∀ m ∈ (e.2.2.filter (fun f => should_process_file f exts)) ++ e.2.1,
      m ∈ (⟨e.2.1 ++ e.2.2, [], []⟩ : PState).existing := by
    intro m hm'
    rcases List.mem_append.mp hm' with h | h
    · exact List.mem_append.mpr (Or.inr (List.mem_of_mem_filter h))
    · exact List.mem_append.mpr (Or.inl h)
  have h₁ := foldl_news_inv tr e.1 false
    (e.2.2.filter (fun f => should_process_file f exts)) e.2.1
    ⟨e.2.1 ++ e.2.2, [], []⟩ hndf hmem (by simp) (by simp)
  have hnd1 : (e.2.1 ++ ([] : List String)).Nodup := by
    simpa using (List.nodup_append.mp hnd).1
  have h₂ := foldl_news_inv tr e.1 true e.2.1 []
    ((e.2.2.filter (fun f => should_process_file f exts)).foldl
      (planStep tr e.1 false) ⟨e.2.1 ++ e.2.2, [], []⟩)
    hnd1
    (by simpa using h₁.1)
    (by simpa using fun op hop => ⟨(h₁.2.1 op hop).1, (h₁.2.1 op hop).2⟩)
    h₁.2.2
  exact h₂.2.2

/-- C2: per directory (walk entry), the Plan's operations for that directory —
contiguous in the Plan, in plan order, by the first conjunct — are such that,
executing them in order while updating the directory's name set, (i) each
operation's destination name is absent from the directory at the moment the
operation executes (so it collides neither with a still-present sibling nor
with a previously created destination that is still present), (ii) every
sibling untouched by the batch remains present throughout, and (iii) when the
directory's names are distinct (as on a real filesystem) all destinations of
the directory's operations are pairwise distinct. -/
theorem C2_plan_collision_free (root : String) (cs : FSForest) (tr : List String)
    (exts : Option (List String)) :
    (collect_rename_operations root cs tr exts).1 =
      ((osWalk root cs).map (entryOps tr exts)).flatten
    ∧ ∀ e ∈ osWalk root cs,
      (∀ (k : Nat) (hk : k < (entryOps tr exts e).length),
        ((entryOps tr exts e)[k]).new_name ∉
          applyOps (e.2.1 ++ e.2.2) ((entryOps tr exts e).take k))
      ∧ (∀ s ∈ e.2.1 ++ e.2.2, (∀ op ∈ entryOps tr exts e, op.old_name ≠ s) →
          ∀ k : Nat, s ∈ applyOps (e.2.1 ++ e.2.2) ((entryOps tr exts e).take k))
      ∧ ((e.2.1 ++ e.2.2).Nodup →
          ((entryOps tr exts e).map (fun op => op.new_name)).Nodup) := by
  refine ⟨by rw [collect_eq_flatten], fun e _ => ⟨?_, ?_, entryOps_news_nodup tr exts e⟩⟩
  · exact (collFree_iff_take (entryOps tr exts e) (e.2.1 ++ e.2.2)).mp
      (entryOps_collFree tr exts e)
  · intro s hs hunt k
    refine applyOps_mem_untouched _ _ s hs ?_
    intro op hop
    exact hunt op ((List.take_sublist k (entryOps tr exts e)).subset hop)

/-- Witness for C2 at a concrete tree and walk entry. -/
theorem C2_plan_collision_free_witness :
    ((entryOps ["_old"] none ("/r", [], ["a_old.txt"])).map (fun op => op.new_name)).Nodup :=
  ((C2_plan_collision_free "/r" (.cons (.file "a_old.txt") .nil) ["_old"] none).2
    ("/r", [], ["a_old.txt"]) (by decide)).2.2 (by decide)

/-! ## C6: executor behaviour -/

theorem executeOps_key (ok : Op → Bool) : ∀ (l : List Op) (succ errs : List (String × String)),
    l.foldl
      (fun acc op =>
        match rename_item (ok op) op acc.2 with
        | (true, errs) => (acc.1 ++ [(op.old_path, op.new_path)], errs)
        | (false, errs) => (acc.1, errs)) (succ, errs) =
      (succ ++ (l.filter ok).map (fun op => (op.old_path, op.new_path)),
       errs ++ (l.filter (fun op => !(ok op))).map (fun op => (op.old_name, op.new_name))) := by
  intro l
  induction l with
  | nil => intro succ errs; simp
  | cons op rest ih =>
    intro succ errs
    cases hok : ok op with
    | true =>
      show rest.foldl _ (match rename_item (ok op) op errs with
        | (true, errs) => (succ ++ [(op.old_path, op.new_path)], errs)
        | (false, errs) => (succ, errs)) = _
      rw [hok]
      show rest.foldl _ (succ ++ [(op.old_path, op.new_path)], errs) = _
      rw [ih]
      simp [List.filter_cons, hok]
    | false =>
      show rest.foldl _ (match rename_item (ok op) op errs with
        | (true, errs) => (succ ++ [(op.old_path, op.new_path)], errs)
        | (false, errs) => (succ, errs)) = _
      rw [hok]
      show rest.foldl _ (succ, errs ++ [(op.old_name, op.new_name)]) = _
      rw [ih]
      simp [List.filter_cons, hok]

theorem filter_length_partition (ok : Op → Bool) : ∀ l : List Op,
    (l.filter ok).length + (l.filter (fun op => !(ok op))).length = l.length := by
  intro l
  induction l with
  | nil => rfl
  | cons op rest ihl => cases hok : ok op <;> simp [List.filter_cons, hok] <;> omega

/-- C6: the executor applies operations in plan order; every operation whose
`os.rename` succeeds is appended to the SuccessLog in application order, every
failing operation is recorded as an ExecutionError naming the items and does
not stop the loop (no operation is ever skipped because an earlier one
failed, and earlier successes are never rolled back), and every operation is
attempted exactly once. -/
theorem C6_executor_characterisation (ok : Op → Bool) (ops : List Op) :
    (executeOps ok ops).1 = (ops.filter ok).map (fun op => (op.old_path, op.new_path))
    ∧ (executeOps ok ops).2 =
        (ops.filter (fun op => !(ok op))).map (fun op => (op.old_name, op.new_name))
    ∧ (executeOps ok ops).1.length + (executeOps ok ops).2.length = ops.length := by
  have h := executeOps_key ok ops [] []
  have h1 : (executeOps ok ops).1 =
      (ops.filter ok).map (fun op => (op.old_path, op.new_path)) := by
    show (ops.foldl _ ([], [])).1 = _
    rw [h]
    simp
  have h2 : (executeOps ok ops).2 =
      (ops.filter (fun op => !(ok op))).map (fun op => (op.old_name, op.new_name)) := by
    show (ops.foldl _ ([], [])).2 = _
    rw [h]
    simp
  refine ⟨h1, h2, ?_⟩
  rw [h1, h2]
  simp only [List.length_map]
  exact filter_length_partition ok ops

/-! ## C7: undo generation and the round trip -/

theorem data_drop_append (a s : List Char) : (a ++ s).drop a.length = s := by
  simp

theorem rewritePath_roundtrip (src dst p : String)
    (hp : underB dst p = false) :
    rewritePath dst src (rewritePath src dst p) = p := by
  unfold underB at hp
  rw [Bool.or_eq_false_iff] at hp
  have hpd : p ≠ dst := by
    intro hc
    exact absurd (beq_iff_eq.mpr hc) (by simp [hp.1])
  have hpp : ¬ ((dst.data ++ ['/']).isPrefixOf p.data = true) := by
    intro hc
    rw [hp.2] at hc
    exact absurd hc (by simp)
  unfold rewritePath
  by_cases h1 : p = src
  · subst h1
    rw [if_pos rfl, if_pos rfl]
  · rw [if_neg h1]
    by_cases h2 : (src.data ++ ['/']).isPrefixOf p.data = true
    · rw [if_pos h2]
      rcases List.isPrefixOf_iff_prefix.mp h2 with ⟨t, ht⟩
      have ht' : p.data = src.data ++ '/' :: t := by
        rw [← ht]; simp
      have hdrop : p.data.drop src.data.length = '/' :: t := by
        rw [ht']
        exact List.drop_left src.data ('/' :: t)
      have hne : String.mk (dst.data ++ p.data.drop src.data.length) ≠ dst := by
        rw [hdrop]
        intro hc
        have hlen := congrArg (fun q => q.data.length) hc
        simp at hlen
      rw [if_neg hne]
      have hpref : (dst.data ++ ['/']).isPrefixOf
          (String.mk (dst.data ++ p.data.drop src.data.length)).data = true := by
        rw [hdrop]
        apply List.isPrefixOf_iff_prefix.mpr
        exact ⟨t, by simp⟩
      rw [if_pos hpref]
      show String.mk (src.data ++
        (dst.data ++ p.data.drop src.data.length).drop dst.data.length) = p
      rw [hdrop, List.drop_left, ← ht']
    · rw [if_neg h2, if_neg hpd, if_neg hpp]

theorem applyRen_roundtrip (st : List String) (src dst : String)
    (h : st.all (fun p => !(underB dst p)) = true) :
    applyRen (applyRen st (src, dst)) (dst, src) = st := by
  unfold applyRen
  rw [List.map_map]
  have hcong : ∀ p ∈ st,
      (rewritePath dst src ∘ rewritePath src dst) p = id p := by
    intro p hp
    have hall := List.all_eq_true.mp h p hp
    have hfp : underB dst p = false := by
      cases hu : underB dst p
      · rfl
      · rw [hu] at hall; exact absurd hall (by simp)
    exact rewritePath_roundtrip src dst p hfp
  rw [List.map_congr_left hcong, List.map_id]

theorem runCmds_undo (log : List (String × String)) : ∀ (st : List String),
    freshSeq st log = true →
    runCmds (runCmds st log) (generate_undo_script log) = st := by
  induction log with
  | nil => intro st _; rfl
  | cons c rest ih =>
    intro st hf
    rw [freshSeq, Bool.and_eq_true] at hf
    show runCmds (runCmds (applyRen st c) rest) (generate_undo_script (c :: rest)) = st
    have hgen : generate_undo_script (c :: rest) =
        generate_undo_script rest ++ [(c.2, c.1)] := by
      unfold generate_undo_script
      simp
    rw [hgen]
    unfold runCmds
    rw [List.foldl_append]
    show applyRen
      (runCmds (runCmds (applyRen st c) rest) (generate_undo_script rest)) (c.2, c.1) = st
    rw [ih (applyRen st c) hf.2]
    obtain ⟨src, dst⟩ := c
    exact applyRen_roundtrip st src dst hf.1

/-- C7: the generated undo script emits exactly one command per successful
operation, renaming `destination_path` back to `source_path`, in reverse of
the SuccessLog's order; and whenever each forward rename's destination was
fresh at the moment it ran (which the success of the underlying `os.rename`
guarantees), executing the script after the forward renames restores every
path of the filesystem state to its exact original value — the state is
identical to the pre-run state. -/
theorem C7_undo_round_trip :
    (∀ log : List (String × String),
      generate_undo_script log = (log.map (fun p => (p.2, p.1))).reverse)
    ∧ (∀ (st : List String) (log : List (String × String)),
        freshSeq st log = true →
        runCmds (runCmds st log) (generate_undo_script log) = st) :=
  ⟨fun _ => rfl, fun st log h => runCmds_undo log st h⟩

/-- Witness for C7 at a concrete state and success log. -/
theorem C7_undo_round_trip_witness :
    freshSeq ["/r/a_old", "/r/a_old/f.txt"] [("/r/a_old", "/r/a")] = true
    ∧ runCmds (runCmds ["/r/a_old", "/r/a_old/f.txt"] [("/r/a_old", "/r/a")])
        (generate_undo_script [("/r/a_old", "/r/a")]) = ["/r/a_old", "/r/a_old/f.txt"] :=
  ⟨by decide, C7_undo_round_trip.2 _ _ (by decide)⟩

/-! ## C8: the safety guard -/

/-- Counterexample to C8 as stated: `/home/u/docs` is strictly contained in
the invoking user's home directory root `/home/u` — an entry of the denylist
according to the claim — yet the guard returns `false` (the source compares
the home directory by equality only, deliberately allowing subdirectories). -/
theorem C8_guard_counterexample :
    is_system_directory "/home/u" "/home/u/docs" = false
    ∧ ("/home/u" ++ "/").data.isPrefixOf "/home/u/docs".data = true := by
  decide

/-- C8 (amended): the guard returns true exactly when the resolved path equals
the filesystem root `/`, equals or is strictly contained in one of the listed
Unix system directories, or exactly equals the home directory — containment
strictly inside the home directory (or under `/` alone) does not trigger it;
and whenever the guard holds for the root argument, `rename_directory` refuses
to proceed (returns the protected-root configuration error) before any
traversal or planning. -/
theorem C8_guard_characterisation (home path : String) :
    (is_system_directory home path = true ↔
      (path = "/"
        ∨ (∃ d ∈ unix_system_dirs, path = d ∨ (d ++ "/").data.isPrefixOf path.data = true)
        ∨ path = home))
    ∧ (∀ (cs : FSForest) (dry : Bool) (tr : List String) (exts : Option (List String)),
        is_system_directory home path = true →
        rename_directory path (some cs) true home tr dry exts =
          Except.error ConfigError.protectedRoot) := by
  constructor
  · unfold is_system_directory
    by_cases h1 : path = "/"
    · rw [if_pos h1]
      exact iff_of_true rfl (Or.inl h1)
    · rw [if_neg h1]
      by_cases h2 : unix_system_dirs.any
          (fun d => path == d || (d ++ "/").data.isPrefixOf path.data) = true
      · rw [if_pos h2]
        refine iff_of_true rfl (Or.inr (Or.inl ?_))
        rcases List.any_eq_true.mp h2 with ⟨d, hd, hcond⟩
        rcases Bool.or_eq_true_iff.mp hcond with h | h
        · exact ⟨d, hd, Or.inl (beq_iff_eq.mp h)⟩
        · exact ⟨d, hd, Or.inr h⟩
      · rw [if_neg h2]
        by_cases h3 : path = home
        · rw [if_pos h3]
          exact iff_of_true rfl (Or.inr (Or.inr h3))
        · rw [if_neg h3]
          refine iff_of_false (by simp) ?_
          rintro (h | ⟨d, hd, h | h⟩ | h)
          · exact h1 h
          · refine h2 (List.any_eq_true.mpr ⟨d, hd, ?_⟩)
            exact Bool.or_eq_true_iff.mpr (Or.inl (beq_iff_eq.mpr h))
          · refine h2 (List.any_eq_true.mpr ⟨d, hd, ?_⟩)
            exact Bool.or_eq_true_iff.mpr (Or.inr h)
          · exact h3 h
  · intro cs dry tr exts hsys
    simp [rename_directory, hsys]

/-- Witness for C8 (amended) at a concrete protected path. -/
theorem C8_guard_characterisation_witness :
    is_system_directory "/home/u" "/etc/nginx" = true
    ∧ rename_directory "/etc/nginx" (some .nil) true "/home/u" ["x"] false none =
        Except.error ConfigError.protectedRoot :=
  ⟨(C8_guard_characterisation "/home/u" "/etc/nginx").1.mpr
    (Or.inr (Or.inl ⟨"/etc", by decide, Or.inr (by decide)⟩)),
   (C8_guard_characterisation "/home/u" "/etc/nginx").2 .nil false ["x"] none (by decide)⟩

/-! ## C9: fatal configuration errors versus accumulated errors -/

/-- Counterexample to C9 as stated: the claim makes a non-writable root fatal
"for every invocation", but the source guards the writability check with
`if not dry_run and ...`; under dry-run a non-writable root is not rejected —
the run proceeds past the configuration checks into the traversal and
produces the full plan instead of raising. -/
theorem C9_error_taxonomy_counterexample :
    rename_directory "/r" (some (.cons (.file "a_old.txt") .nil)) false "/home/u"
        ["_old"] true none =
      Except.ok ([⟨"/r/a_old.txt", "/r/a.txt", "a_old.txt", "a.txt"⟩], []) := rfl

/-- C9 (amended): a missing root is fatal for every invocation (the run
returns a configuration error and no plan); a non-writable root is fatal for
every invocation *outside dry-run mode*, while under dry-run the writability
check is skipped and the run proceeds to the traversal/planning stage; a
protected root is fatal; by contrast, planning errors are accumulated per
entry — the error list is the concatenation of per-entry contributions, one
entry's errors never suppressing another entry's — and execution errors never
abort the batch (every operation is attempted: successes plus errors account
for the whole plan). -/
theorem C9_error_taxonomy (root : String) (cs : FSForest) (writable : Bool) (home : String)
    (tr : List String) (dry : Bool) (exts : Option (List String)) :
    (rename_directory root none writable home tr dry exts =
      Except.error ConfigError.notADirectory)
    ∧ (dry = false → writable = false →
        rename_directory root (some cs) writable home tr dry exts =
          Except.error ConfigError.notWritable)
    ∧ (dry = true → is_system_directory home root = false →
        rename_directory root (some cs) writable home tr dry exts =
          Except.ok (collect_rename_operations root cs tr exts))
    ∧ (is_system_directory home root = true → dry = true ∨ writable = true →
        rename_directory root (some cs) writable home tr dry exts =
          Except.error ConfigError.protectedRoot)
    ∧ ((collect_rename_operations root cs tr exts).2 =
        ((osWalk root cs).map (entryErrs tr exts)).flatten)
    ∧ (∀ (ok : Op → Bool) (ops : List Op),
        (executeOps ok ops).1.length + (executeOps ok ops).2.length = ops.length) := by
  refine ⟨rfl, ?_, ?_, ?_, ?_, ?_⟩
  · intro hdry hw
    subst hdry hw
    rfl
  · intro hdry hsys
    subst hdry
    simp [rename_directory, hsys]
  · intro hsys hdw
    rcases hdw with h | h
    · subst h
      simp [rename_directory, hsys]
    · subst h
      simp [rename_directory, hsys]
  · rw [collect_eq_flatten]
  · intro ok ops
    have h := executeOps_key ok ops [] []
    have h1 : (executeOps ok ops).1 =
        (ops.filter ok).map (fun op => (op.old_path, op.new_path)) := by
      show (ops.foldl _ ([], [])).1 = _
      rw [h]
      simp
    have h2 : (executeOps ok ops).2 =
        (ops.filter (fun op => !(ok op))).map (fun op => (op.old_name, op.new_name)) := by
      show (ops.foldl _ ([], [])).2 = _
      rw [h]
      simp
    rw [h1, h2]
    simp only [List.length_map]
    exact filter_length_partition ok ops

/-- Witness for C9 (amended) at concrete configurations, including the
dry-run invocation that skips the writability check. -/
theorem C9_error_taxonomy_witness :
    rename_directory "/r" none true "/home/u" ["_old"] false none =
      Except.error ConfigError.notADirectory
    ∧ rename_directory "/r" (some (.cons (.file "a_old.txt") .nil)) false "/home/u"
        ["_old"] false none = Except.error ConfigError.notWritable
    ∧ rename_directory "/r" (some (.cons (.file "a_old.txt") .nil)) false "/home/u"
        ["_old"] true none =
        Except.ok (collect_rename_operations "/r" (.cons (.file "a_old.txt") .nil)
          ["_old"] none)
    ∧ rename_directory "/etc" (some .nil) true "/home/u" ["x"] false none =
        Except.error ConfigError.protectedRoot :=
  ⟨(C9_error_taxonomy "/r" .nil true "/home/u" ["_old"] false none).1,
   (C9_error_taxonomy "/r" (.cons (.file "a_old.txt") .nil) false "/home/u"
     ["_old"] false none).2.1 rfl rfl,
   (C9_error_taxonomy "/r" (.cons (.file "a_old.txt") .nil) false "/home/u"
     ["_old"] true none).2.2.1 rfl (by decide),
   (C9_error_taxonomy "/etc" .nil true "/home/u" ["x"] false none).2.2.2.1
     (by decide) (Or.inr rfl)⟩

/-! ## C1: bottom-up ordering of the plan -/

theorem prefix_cancel_left {α : Type} [DecidableEq α] (a : List α) : ∀ {x y : List α},
    (a ++ x <+: a ++ y) ↔ (x <+: y) := by
  induction a with
  | nil => intro x y; simp
  | cons c a ih =>
    intro x y
    rw [List.cons_append, List.cons_append, List.cons_prefix_cons]
    simp [ih]

/-- Separation along `/` boundaries: if `a` and `b` are slash-free and a
prefix relation holds between `a ++ '/' :: X` and `b ++ Y` with `Y` empty or
starting at a slash, then `a = b` and the relation descends. -/
theorem slash_sep_prefix : ∀ (a X b Y : List Char),
    '/' ∉ a → '/' ∉ b → (Y = [] ∨ ∃ Y₂, Y = '/' :: Y₂) →
    (a ++ '/' :: X <+: b ++ Y) → a = b ∧ '/' :: X <+: Y := by
  intro a
  induction a with
  | nil =>
    intro X b Y ha hb hY h
    cases b with
    | nil => exact ⟨rfl, by simpa using h⟩
    | cons d b' =>
      rw [List.nil_append, List.cons_append, List.cons_prefix_cons] at h
      have hmem : '/' ∈ d :: b' := by rw [h.1]; exact List.mem_cons_self d b'
      exact absurd hmem hb
  | cons c a' ih =>
    intro X b Y ha hb hY h
    cases b with
    | nil =>
      rw [List.nil_append] at h
      rcases hY with hY | ⟨Y₂, hY⟩
      · subst hY
        rw [List.cons_append] at h
        exact absurd (List.prefix_nil.mp h) (by simp)
      · subst hY
        rw [List.cons_append, List.cons_prefix_cons] at h
        have hmem : '/' ∈ c :: a' := by rw [← h.1]; exact List.mem_cons_self c a'
        exact absurd hmem ha
    | cons d b' =>
      rw [List.cons_append, List.cons_append, List.cons_prefix_cons] at h
      have hmem_a : '/' ∉ a' := fun hc => ha (List.mem_cons_of_mem c hc)
      have hmem_b : '/' ∉ b' := fun hc => hb (List.mem_cons_of_mem d hc)
      have hrec := ih X b' Y hmem_a hmem_b hY h.2
      exact ⟨by rw [h.1, hrec.1], hrec.2⟩

theorem jnC_cons (n : String) (w : List String) :
    jnC (n :: w) = '/' :: (n.data ++ jnC w) := rfl

theorem jnC_form (w : List String) : w = [] ∨ ∃ X, jnC w = '/' :: X := by
  cases w with
  | nil => exact Or.inl rfl
  | cons n w' => exact Or.inr ⟨n.data ++ jnC w', rfl⟩

/-- Between slash-free component lists, a rendered-path strict-prefix (the
rendering of `u` followed by a slash is an initial segment of the rendering of
`v`) forces `u` to be a strict prefix of `v` as component lists. -/
theorem jnC_strict_prefix : ∀ (u v : List String),
    (∀ n ∈ u, '/' ∉ n.data) → (∀ n ∈ v, '/' ∉ n.data) →
    (jnC u ++ ['/'] <+: jnC v) → u <+: v ∧ u ≠ v := by
  intro u
  induction u with
  | nil =>
    intro v _ _ h
    cases v with
    | nil => exact absurd (List.prefix_nil.mp h) (by simp)
    | cons m v' => exact ⟨List.nil_prefix, by simp⟩
  | cons a u' ih =>
    intro v hu hv h
    cases v with
    | nil =>
      rw [jnC_cons] at h
      exact absurd (List.prefix_nil.mp h) (by simp)
    | cons b v' =>
      rw [jnC_cons, jnC_cons, List.cons_append, List.cons_prefix_cons] at h
      have h2 := h.2
      rw [List.append_assoc] at h2
      have hXform : ∃ X, jnC u' ++ ['/'] = '/' :: X := by
        rcases jnC_form u' with h' | ⟨X, hX⟩
        · rw [h']; exact ⟨[], rfl⟩
        · exact ⟨X ++ ['/'], by rw [hX]; rfl⟩
      rcases hXform with ⟨X, hX⟩
      rw [hX] at h2
      have hYform : jnC v' = [] ∨ ∃ Y₂, jnC v' = '/' :: Y₂ := by
        rcases jnC_form v' with h' | hex
        · exact Or.inl (by rw [h']; rfl)
        · exact Or.inr hex
      have hsep := slash_sep_prefix a.data X b.data (jnC v')
        (hu a (List.mem_cons_self a u')) (hv b (List.mem_cons_self b v')) hYform h2
      have hab : a = b := by
        cases a
        cases b
        exact congrArg String.mk hsep.1
      have hpre : jnC u' ++ ['/'] <+: jnC v' := by
        rw [hX]
        exact hsep.2
      have hrec := ih v'
        (fun n hn => hu n (List.mem_cons_of_mem a hn))
        (fun n hn => hv n (List.mem_cons_of_mem b hn))
        hpre
      constructor
      · rw [hab]
        exact List.cons_prefix_cons.mpr ⟨rfl, hrec.1⟩
      · intro hc
        injection hc with hc1 hc2
        exact hrec.2 hc2

theorem pathOfComps_snoc (root : String) (u : List String) (n : String) :
    pathJoin (pathOfComps root u) n = pathOfComps root (u ++ [n]) := by
  unfold pathOfComps
  rw [List.foldl_append]
  rfl

theorem pathOfComps_data : ∀ (w : List String),
    ∀ r : String, (pathOfComps r w).data = r.data ++ jnC w := by
  intro w
  induction w with
  | nil => intro r; simp [pathOfComps, jnC]
  | cons n w' ih =>
    intro r
    show (pathOfComps (pathJoin r n) w').data = _
    rw [ih (pathJoin r n), jnC_cons]
    show (r ++ "/" ++ n).data ++ jnC w' = r.data ++ '/' :: (n.data ++ jnC w')
    rw [String.data_append, String.data_append]
    simp

theorem goodNameB_iff (n : String) : goodNameB n = true ↔ '/' ∉ n.data := by
  unfold goodNameB
  simp

theorem walkDirs_eq_mapC (root : String) : (cs : FSForest) → (pre : List String) →
    walkDirs (pathOfComps root pre) cs = (walkDirsC pre cs).map (toSEntry root)
  | .nil, pre => rfl
  | .cons (.file m) rest, pre => walkDirs_eq_mapC root rest pre
  | .cons (.dir n cs) rest, pre => by
    show (walkDirs (pathJoin (pathOfComps root pre) n) cs ++
        [(pathJoin (pathOfComps root pre) n, dirNames cs, fileNames cs)]) ++
        walkDirs (pathOfComps root pre) rest = _
    rw [pathOfComps_snoc root pre n]
    rw [walkDirs_eq_mapC root cs (pre ++ [n]), walkDirs_eq_mapC root rest pre]
    show _ = ((walkDirsC (pre ++ [n]) cs ++ [(pre ++ [n], dirNames cs, fileNames cs)])
        ++ walkDirsC pre rest).map (toSEntry root)
    rw [List.map_append, List.map_append]
    rfl

theorem osWalk_eq_mapC (root : String) (cs : FSForest) :
    osWalk root cs = (osWalkC cs).map (toSEntry root) := by
  unfold osWalk osWalkC
  rw [List.map_append]
  have h0 : pathOfComps root [] = root := rfl
  rw [show walkDirs root cs = walkDirs (pathOfComps root []) cs from rfl]
  rw [walkDirs_eq_mapC root cs []]
  rfl

theorem walkDirsC_pairwise : (cs : FSForest) → ∀ (pre : List String),
    (dirNames cs).Nodup →
    (∀ x ∈ dirNames cs, goodNameB x = true) →
    goodWalkC (walkDirsC pre cs) = true →
    List.Pairwise RelC (walkDirsC pre cs)
    ∧ (∀ e ∈ walkDirsC pre cs,
        ∃ n ∈ dirNames cs, ∃ u, e.1 = pre ++ (n :: u)
          ∧ (∀ x ∈ n :: u, goodNameB x = true))
  | .nil => by
    intro pre _ _ _
    exact ⟨List.Pairwise.nil, fun e he => absurd he (List.not_mem_nil e)⟩
  | .cons (.file m) rest => by
    intro pre h1 h2 h3
    exact walkDirsC_pairwise rest pre h1 h2 h3
  | .cons (.dir n cs₀) rest => by
    intro pre hnd hgn hgw
    have hndc : (n :: dirNames rest).Nodup := hnd
    have hn_notmem : n ∉ dirNames rest := (List.nodup_cons.mp hndc).1
    have hnd_rest : (dirNames rest).Nodup := (List.nodup_cons.mp hndc).2
    have hgn_n : goodNameB n = true := hgn n (List.mem_cons_self n (dirNames rest))
    have hgn_rest : ∀ x ∈ dirNames rest, goodNameB x = true :=
      fun x hx => hgn x (List.mem_cons_of_mem n hx)
    have hgwAll : ∀ e ∈ (walkDirsC (pre ++ [n]) cs₀ ++
        [(pre ++ [n], dirNames cs₀, fileNames cs₀)]) ++ walkDirsC pre rest,
        goodNames e.2 = true := List.all_eq_true.mp hgw
    have hgwA : goodWalkC (walkDirsC (pre ++ [n]) cs₀) = true :=
      List.all_eq_true.mpr (fun e he =>
        hgwAll e (List.mem_append.mpr (Or.inl (List.mem_append.mpr (Or.inl he)))))
    have hgwB : goodWalkC (walkDirsC pre rest) = true :=
      List.all_eq_true.mpr (fun e he => hgwAll e (List.mem_append.mpr (Or.inr he)))
    have hent : goodNames (dirNames cs₀, fileNames cs₀) = true :=
      hgwAll (pre ++ [n], dirNames cs₀, fileNames cs₀)
        (List.mem_append.mpr (Or.inl (List.mem_append.mpr (Or.inr
          (List.mem_singleton.mpr rfl)))))
    have hent' : (dirNames cs₀ ++ fileNames cs₀).all goodNameB = true ∧
        (dirNames cs₀).Nodup := by
      have h := hent
      simp only [goodNames] at h
      rw [Bool.and_eq_true] at h
      exact ⟨h.1, of_decide_eq_true h.2⟩
    have hnd₀ : (dirNames cs₀).Nodup := hent'.2
    have hgn₀ : ∀ x ∈ dirNames cs₀, goodNameB x = true :=
      fun x hx => List.all_eq_true.mp hent'.1 x (List.mem_append.mpr (Or.inl hx))
    have rec₁ := walkDirsC_pairwise cs₀ (pre ++ [n]) hnd₀ hgn₀ hgwA
    have rec₂ := walkDirsC_pairwise rest pre hnd_rest hgn_rest hgwB
    have covLeft : ∀ e ∈ walkDirsC (pre ++ [n]) cs₀ ++
        [(pre ++ [n], dirNames cs₀, fileNames cs₀)],
        ∃ u, e.1 = pre ++ (n :: u) ∧ (∀ x ∈ n :: u, goodNameB x = true) := by
      intro e he
      rcases List.mem_append.mp he with he' | he'
      · rcases rec₁.2 e he' with ⟨n', _, u, he1, hgood'⟩
        refine ⟨n' :: u, ?_, ?_⟩
        · rw [he1]
          simp
        · intro x hx
          rcases List.mem_cons.mp hx with hx' | hx'
          · rw [hx']; exact hgn_n
          · exact hgood' x hx'
      · rw [List.mem_singleton] at he'
        subst he'
        refine ⟨[], by simp, ?_⟩
        intro x hx
        rw [List.mem_singleton.mp hx]
        exact hgn_n
    refine ⟨?_, ?_⟩
    · show List.Pairwise RelC ((walkDirsC (pre ++ [n]) cs₀ ++
        [(pre ++ [n], dirNames cs₀, fileNames cs₀)]) ++ walkDirsC pre rest)
      rw [List.pairwise_append]
      refine ⟨?_, rec₂.1, ?_⟩
      · rw [List.pairwise_append]
        refine ⟨rec₁.1, List.pairwise_singleton _ _, ?_⟩
        intro E hE F hF
        rw [List.mem_singleton] at hF
        subst hF
        rcases rec₁.2 E hE with ⟨n', _, u, hE1, _⟩
        intro nE nF hand
        have hlen := hand.1.length_le
        rw [hE1] at hlen
        simp [List.length_append] at hlen
      · intro E hE F hF
        rcases covLeft E hE with ⟨uE, hE1, _⟩
        rcases rec₂.2 F hF with ⟨m, hm, uF, hF1, _⟩
        have hmn : n ≠ m := fun hc => hn_notmem (hc ▸ hm)
        intro nE nF hand
        have hpre := hand.1
        rw [hE1, hF1, List.append_assoc, List.append_assoc] at hpre
        have hpre' := (prefix_cancel_left pre).mp hpre
        rw [show (n :: uE) ++ [nE] = n :: (uE ++ [nE]) from rfl,
          show (m :: uF) ++ [nF] = m :: (uF ++ [nF]) from rfl,
          List.cons_prefix_cons] at hpre'
        exact hmn hpre'.1
    · intro e he
      rcases List.mem_append.mp he with he' | he'
      · rcases covLeft e he' with ⟨u, he1, hgood'⟩
        exact ⟨n, List.mem_cons_self n (dirNames rest), u, he1, hgood'⟩
      · rcases rec₂.2 e he' with ⟨m, hm, u, he1, hgood'⟩
        exact ⟨m, List.mem_cons_of_mem n hm, u, he1, hgood'⟩

theorem osWalkC_pairwise (cs : FSForest) (hgood : goodWalkC (osWalkC cs) = true) :
    List.Pairwise RelC (osWalkC cs)
    ∧ (∀ e ∈ osWalkC cs, ∀ x ∈ e.1, goodNameB x = true) := by
  have hgAll : ∀ e ∈ walkDirsC [] cs ++ [([], dirNames cs, fileNames cs)],
      goodNames e.2 = true := List.all_eq_true.mp hgood
  have hroot : goodNames (dirNames cs, fileNames cs) = true :=
    hgAll ([], dirNames cs, fileNames cs)
      (List.mem_append.mpr (Or.inr (List.mem_singleton.mpr rfl)))
  have hroot' : (dirNames cs ++ fileNames cs).all goodNameB = true ∧
      (dirNames cs).Nodup := by
    have h := hroot
    simp only [goodNames] at h
    rw [Bool.and_eq_true] at h
    exact ⟨h.1, of_decide_eq_true h.2⟩
  have hnd : (dirNames cs).Nodup := hroot'.2
  have hgn : ∀ x ∈ dirNames cs, goodNameB x = true :=
    fun x hx => List.all_eq_true.mp hroot'.1 x (List.mem_append.mpr (Or.inl hx))
  have hgwA : goodWalkC (walkDirsC [] cs) = true :=
    List.all_eq_true.mpr (fun e he => hgAll e (List.mem_append.mpr (Or.inl he)))
  have rec := walkDirsC_pairwise cs [] hnd hgn hgwA
  constructor
  · show List.Pairwise RelC (walkDirsC [] cs ++ [([], dirNames cs, fileNames cs)])
    rw [List.pairwise_append]
    refine ⟨rec.1, List.pairwise_singleton _ _, ?_⟩
    intro E hE F hF
    rw [List.mem_singleton] at hF
    subst hF
    rcases rec.2 E hE with ⟨n', _, u, hE1, _⟩
    intro nE nF hand
    have hlen := hand.1.length_le
    rw [hE1] at hlen
    simp [List.length_append] at hlen
  · intro e he x hx
    rcases List.mem_append.mp he with he' | he'
    · rcases rec.2 e he' with ⟨n', _, u, hE1, hgood'⟩
      rw [hE1] at hx
      exact hgood' x (by simpa using hx)
    · rw [List.mem_singleton] at he'
      subst he'
      exact absurd hx (List.not_mem_nil x)

theorem osWalk_pairwiseS (root : String) (cs : FSForest)
    (hgood : goodWalkB (osWalk root cs) = true) :
    List.Pairwise WalkRelS (osWalk root cs) := by
  rw [osWalk_eq_mapC] at hgood ⊢
  have hgC : goodWalkC (osWalkC cs) = true := by
    apply List.all_eq_true.mpr
    intro e he
    exact List.all_eq_true.mp hgood (toSEntry root e) (List.mem_map_of_mem _ he)
  have hC := osWalkC_pairwise cs hgC
  rw [List.pairwise_map]
  apply List.Pairwise.imp_of_mem ?_ hC.1
  intro Ec Fc hEc hFc hrel
  intro nE hnE nF hnF hpre
  have hgE : goodNames Ec.2 = true := List.all_eq_true.mp hgC Ec hEc
  have hgF : goodNames Fc.2 = true := List.all_eq_true.mp hgC Fc hFc
  have hgE' : (Ec.2.1 ++ Ec.2.2).all goodNameB = true := by
    have h := hgE
    simp only [goodNames] at h
    rw [Bool.and_eq_true] at h
    exact h.1
  have hgF' : (Fc.2.1 ++ Fc.2.2).all goodNameB = true := by
    have h := hgF
    simp only [goodNames] at h
    rw [Bool.and_eq_true] at h
    exact h.1
  rw [show pathJoin (toSEntry root Ec).1 nE = pathOfComps root (Ec.1 ++ [nE]) from
    pathOfComps_snoc root Ec.1 nE] at hpre
  rw [show pathJoin (toSEntry root Fc).1 nF = pathOfComps root (Fc.1 ++ [nF]) from
    pathOfComps_snoc root Fc.1 nF] at hpre
  rw [pathOfComps_data, pathOfComps_data, List.append_assoc] at hpre
  have hpre' := (prefix_cancel_left root.data).mp hpre
  have hgoodu : ∀ x ∈ Ec.1 ++ [nE], '/' ∉ x.data := by
    intro x hx
    rcases List.mem_append.mp hx with hx' | hx'
    · exact (goodNameB_iff x).mp (hC.2 Ec hEc x hx')
    · rw [List.mem_singleton.mp hx']
      exact (goodNameB_iff nE).mp (List.all_eq_true.mp hgE' nE hnE)
  have hgoodv : ∀ x ∈ Fc.1 ++ [nF], '/' ∉ x.data := by
    intro x hx
    rcases List.mem_append.mp hx with hx' | hx'
    · exact (goodNameB_iff x).mp (hC.2 Fc hFc x hx')
    · rw [List.mem_singleton.mp hx']
      exact (goodNameB_iff nF).mp (List.all_eq_true.mp hgF' nF hnF)
  have hstrict := jnC_strict_prefix (Ec.1 ++ [nE]) (Fc.1 ++ [nF]) hgoodu hgoodv hpre'
  exact hrel nE nF hstrict

theorem planStep_ops_oldname (tr : List String) (d : String) (b : Bool) (st : PState)
    (n : String) : ∀ op ∈ (planStep tr d b st n).ops, op ∈ st.ops ∨ op.old_name = n := by
  intro op hop
  by_cases h1 : remove_substrings n tr = n
  · simp [planStep, h1] at hop
    exact Or.inl hop
  · by_cases h2 : is_valid_filename (remove_substrings n tr) = false
    · simp [planStep, h1, h2] at hop
      exact Or.inl hop
    · by_cases h3 : remove_substrings n tr ∈ st.existing
      · simp [planStep, h1, h2, h3] at hop
        exact Or.inl hop
      · simp [planStep, h1, h2, h3] at hop
        rcases hop with hop | hop
        · exact Or.inl hop
        · subst hop
          exact Or.inr rfl

theorem foldl_planStep_ops_oldname (tr : List String) (d : String) (b : Bool) :
    ∀ (names : List String) (st : PState) (op : Op),
      op ∈ (names.foldl (planStep tr d b) st).ops → op ∈ st.ops ∨ op.old_name ∈ names := by
  intro names
  induction names with
  | nil => intro st op hop; exact Or.inl hop
  | cons n rest ih =>
    intro st op hop
    rcases ih (planStep tr d b st n) op hop with h | h
    · rcases planStep_ops_oldname tr d b st n op h with h' | h'
      · exact Or.inl h'
      · exact Or.inr (h' ▸ List.mem_cons_self n rest)
    · exact Or.inr (List.mem_cons_of_mem n h)

theorem entryOps_oldname (tr : List String) (exts : Option (List String)) (e : WalkEntry) :
    ∀ op ∈ entryOps tr exts e, op.old_name ∈ e.2.1 ++ e.2.2 := by
  intro op hop
  rcases foldl_planStep_ops_oldname tr e.1 true _ _ op hop with h | h
  · rcases foldl_planStep_ops_oldname tr e.1 false _ _ op h with h' | h'
    · exact absurd h' (List.not_mem_nil op)
    · exact List.mem_append.mpr (Or.inr (List.mem_of_mem_filter h'))
  · exact List.mem_append.mpr (Or.inl h)

/-- C1: for every tree whose directory listings are sane (slash-free names,
distinct subdirectory names — true of any real filesystem), the Plan is
bottom-up: no operation's source path lies strictly below an earlier
operation's source path, i.e. all rename operations for the descendants of a
directory appear strictly before the operation renaming the directory itself.
In particular, for root `/r/dir_old/sub_old/file_old.txt` with substring
`"_old"`, the plan orders `file_old.txt`, then `sub_old`, then `dir_old`. -/
theorem C1_plan_bottom_up (root : String) (cs : FSForest) (tr : List String)
    (exts : Option (List String)) (hgood : goodWalkB (osWalk root cs) = true) :
    List.Pairwise (fun a b : Op => ¬ ((a.old_path.data ++ ['/']) <+: b.old_path.data))
      (collect_rename_operations root cs tr exts).1
    ∧ collect_rename_operations "/r" (.cons (.dir "dir_old" (.cons (.dir "sub_old"
        (.cons (.file "file_old.txt") .nil)) .nil)) .nil) ["_old"] none =
      ([⟨"/r/dir_old/sub_old/file_old.txt", "/r/dir_old/sub_old/file.txt",
          "file_old.txt", "file.txt"⟩,
        ⟨"/r/dir_old/sub_old", "/r/dir_old/sub", "sub_old", "sub"⟩,
        ⟨"/r/dir_old", "/r/dir", "dir_old", "dir"⟩], []) := by
  refine ⟨?_, by decide⟩
  have hops : (collect_rename_operations root cs tr exts).1 =
      ((osWalk root cs).map (entryOps tr exts)).flatten := by
    rw [collect_eq_flatten]
  rw [hops, List.pairwise_flatten]
  constructor
  · intro l hl
    rcases List.mem_map.mp hl with ⟨e, he, rfl⟩
    apply List.pairwise_of_forall_mem_list
    intro a ha b hb hpre
    have hwfa := entryOps_wf tr exts e a ha
    have hwfb := entryOps_wf tr exts e b hb
    have hbn := entryOps_oldname tr exts e b hb
    have hge : goodNames e.2 = true := List.all_eq_true.mp hgood e he
    have hge' : (e.2.1 ++ e.2.2).all goodNameB = true := by
      have h := hge
      simp only [goodNames] at h
      rw [Bool.and_eq_true] at h
      exact h.1
    have hgbn : '/' ∉ b.old_name.data :=
      (goodNameB_iff _).mp (List.all_eq_true.mp hge' b.old_name hbn)
    rw [hwfa.2.2.1, hwfb.2.2.1] at hpre
    have hda : (pathJoin e.1 a.old_name).data = e.1.data ++ ('/' :: a.old_name.data) := by
      unfold pathJoin
      rw [String.data_append, String.data_append]
      simp
    have hdb : (pathJoin e.1 b.old_name).data = e.1.data ++ ('/' :: b.old_name.data) := by
      unfold pathJoin
      rw [String.data_append, String.data_append]
      simp
    rw [hda, hdb, List.append_assoc] at hpre
    have h' := (prefix_cancel_left e.1.data).mp hpre
    rw [show ('/' :: a.old_name.data) ++ ['/'] = '/' :: (a.old_name.data ++ ['/']) from rfl,
      List.cons_prefix_cons] at h'
    exact hgbn (h'.2.subset (List.mem_append.mpr (Or.inr (List.mem_singleton.mpr rfl))))
  · rw [List.pairwise_map]
    have hpwS := osWalk_pairwiseS root cs hgood
    apply List.Pairwise.imp_of_mem ?_ hpwS
    intro E F hE hF hrel
    intro a ha b hb hpre
    have hwfa := entryOps_wf tr exts E a ha
    have han := entryOps_oldname tr exts E a ha
    have hwfb := entryOps_wf tr exts F b hb
    have hbn := entryOps_oldname tr exts F b hb
    rw [hwfa.2.2.1, hwfb.2.2.1] at hpre
    exact hrel a.old_name han b.old_name hbn hpre

/-- Witness for C1 at the spec's concrete tree. -/
theorem C1_plan_bottom_up_witness :
    goodWalkB (osWalk "/r" (.cons (.dir "dir_old" (.cons (.dir "sub_old"
        (.cons (.file "file_old.txt") .nil)) .nil)) .nil)) = true
    ∧ List.Pairwise (fun a b : Op => ¬ ((a.old_path.data ++ ['/']) <+: b.old_path.data))
        (collect_rename_operations "/r" (.cons (.dir "dir_old" (.cons (.dir "sub_old"
          (.cons (.file "file_old.txt") .nil)) .nil)) .nil) ["_old"] none).1 :=
  ⟨by decide,
   (C1_plan_bottom_up "/r" (.cons (.dir "dir_old" (.cons (.dir "sub_old"
     (.cons (.file "file_old.txt") .nil)) .nil)) .nil) ["_old"] none (by decide)).1⟩

example : remove_substrings "MyFILE_old.txt" ["old"] = "MyFILE_.txt" := by decide

example : remove_substrings "file_old.txt" ["_old"] = "file.txt" := rfl

example : is_valid_filename " . . " = false := by decide

example :
    osWalk "/r" (.cons (.dir "dir_old" (.cons (.dir "sub_old"
        (.cons (.file "file_old.txt") .nil)) .nil)) .nil) =
      [("/r/dir_old/sub_old", [], ["file_old.txt"]),
       ("/r/dir_old", ["sub_old"], []),
       ("/r", ["dir_old"], [])] := rfl

example :
    collect_rename_operations "/r" (.cons (.dir "dir_old" (.cons (.dir "sub_old"
        (.cons (.file "file_old.txt") .nil)) .nil)) .nil)
      ["_old"] none =
      ([⟨"/r/dir_old/sub_old/file_old.txt", "/r/dir_old/sub_old/file.txt",
          "file_old.txt", "file.txt"⟩,
        ⟨"/r/dir_old/sub_old", "/r/dir_old/sub", "sub_old", "sub"⟩,
        ⟨"/r/dir_old", "/r/dir", "dir_old", "dir"⟩], []) := by decide

example :
    collect_rename_operations "/r" (.cons (.file "a_old.txt") (.cons (.file "a.txt") .nil))
      ["_old"] none =
      ([], [.nameConflict false "a_old.txt" "a.txt"]) := by decide

end ButchRename
